import Mathlib

/-!
# Rolodex: VFS path resolver and ingestion pipeline — shallow embedding

A shallow embedding of the core of the Rolodex personal-CRM repository:
the virtual-filesystem path resolver (`backend/vfs.py`), the date-slug
disambiguator, the tree renderer, the relevant storage operations
(`backend/database.py`) and the ingestion pipeline orchestrator
(`backend/services/ingestion.py`).

Python strings are modelled as Lean `String` (a wrapper around
`List Char`); the handful of Python string primitives the code uses
(`str.split("/")`, `str.rstrip("/")`, `"/".join`, `str.strip()`,
`str.replace`, `str.startswith`, `str.endswith`, `sorted`, `str(int)`)
are translated as executable functions on `List Char` below.  The
SQLite storage layer is modelled as in-memory lists with the same query
semantics (filters, ORDER BY, LIKE-prefix on ISO dates, AUTOINCREMENT
ids).  LLM calls are an opaque oracle record; each oracle invocation
and each storage write performed by the pipeline is recorded in an
event log so that claims about call order can be stated.
-/

namespace Rolodex

/-! ## Python string primitives on `List Char` -/

/-- `working.split("/")`: split a character list at every `'/'`.
Like Python `str.split`, adjacent separators and separators at either
end produce empty segments, and splitting the empty string yields one
empty segment. -/
def splitSlashAux : List Char → List Char → List (List Char)
  | [], acc => [acc.reverse]
  | c :: cs, acc =>
    if c = '/' then acc.reverse :: splitSlashAux cs []
    else splitSlashAux cs (c :: acc)

def splitSlash (l : List Char) : List (List Char) :=
  splitSlashAux l []

/-- `"/".join(parts)`. -/
def joinSlash : List (List Char) → List Char
  | [] => []
  | [x] => x
  | x :: xs => x ++ '/' :: joinSlash xs

/-- `s.rstrip("/")`: drop every trailing `'/'`. -/
def rstripSlash (l : List Char) : List Char :=
  (l.reverse.dropWhile (fun c => c = '/')).reverse

/-- Lexicographic comparison of character lists by code point; this is
how Python `sorted` orders strings and how SQLite's default BINARY
collation orders TEXT columns. -/
def lexLe : List Char → List Char → Bool
  | [], _ => true
  | _ :: _, [] => false
  | a :: as, b :: bs =>
    if a < b then true
    else if b < a then false
    else lexLe as bs

/-- Stable insertion used by `pySort`: insert `x` before the first
element `y` with `x ≤ y`. -/
def insertSorted (le : α → α → Bool) (x : α) : List α → List α
  | [] => [x]
  | y :: ys => if le x y then x :: y :: ys else y :: insertSorted le x ys

/-- A stable sort, modelling Python's `sorted` / `list.sort` (Timsort is
stable; every stable sort with the same ordering predicate produces the
same list). -/
def pySort (le : α → α → Bool) : List α → List α
  | [] => []
  | x :: xs => insertSorted le x (pySort le xs)

/-- Decimal digits of a natural number (fuelled so it is structurally
recursive and kernel-reducible); `natToDecCore (n+1) n` equals the
digit string of Python `str(n)`. -/
def natToDecCore : Nat → Nat → List Char
  | 0, _ => []
  | fuel + 1, n =>
    if n < 10 then [Nat.digitChar n]
    else natToDecCore fuel (n / 10) ++ [Nat.digitChar (n % 10)]

def natToDec (n : Nat) : List Char :=
  natToDecCore (n + 1) n

/-- Python `str(n)` for a natural number. -/
def natToStr (n : Nat) : String :=
  ⟨natToDec n⟩

/-- Zero-pad a decimal number to two digits, as `strftime("%m")`,
`strftime("%d")` and `datetime.isoformat` do. -/
def pad2 (n : Nat) : String :=
  ⟨List.replicate (2 - (natToDec n).length) '0' ++ natToDec n⟩

/-- Zero-pad a decimal number to four digits, as `datetime.isoformat`
does for the year.  (`strftime("%Y")` agrees with this for the years
1000–9999 that `DatetimeWF` below restricts to.) -/
def pad4 (n : Nat) : String :=
  ⟨List.replicate (4 - (natToDec n).length) '0' ++ natToDec n⟩

/-- The ASCII whitespace characters stripped by Python `str.strip()`. -/
def isPySpace (c : Char) : Bool :=
  c == ' ' || c == '\t' || c == '\n' || c == '\r' ||
    c == Char.ofNat 11 || c == Char.ofNat 12

/-- Python `s.strip()`. -/
def pyStrip (s : String) : String :=
  ⟨((s.data.dropWhile isPySpace).reverse.dropWhile isPySpace).reverse⟩

/-- Python `s.startswith(p)`. -/
def pyStartsWith (s p : String) : Bool :=
  p.data.isPrefixOf s.data

/-- Python `s.endswith("/")`. -/
def endsWithSlash (s : String) : Bool :=
  s.data.getLast? == some '/'

/-- `s.rstrip("/")` on `String`. -/
def rstrip (s : String) : String :=
  ⟨rstripSlash s.data⟩

/-- Python `sorted` on strings. -/
def sortStrs (l : List String) : List String :=
  pySort (fun a b => lexLe a.data b.data) l

/-! ## Data model (`backend/models.py`, `backend/config.py`) -/

inductive PersonType
  | customer
  | investor
  | competitor
  | untyped
deriving DecidableEq, Inhabited

def PersonType.value : PersonType → String
  | .customer => "customer"
  | .investor => "investor"
  | .competitor => "competitor"
  | .untyped => ""

inductive Tag
  | pricing
  | product
  | gtm
  | competitors
  | market
deriving DecidableEq, Inhabited

def Tag.value : Tag → String
  | .pricing => "pricing"
  | .product => "product"
  | .gtm => "gtm"
  | .competitors => "competitors"
  | .market => "market"

/-- A Python `datetime` value (microseconds are irrelevant to the
modelled code and omitted). -/
structure Datetime where
  year : Nat
  month : Nat
  day : Nat
  hour : Nat
  minute : Nat
  second : Nat
deriving DecidableEq, Inhabited

/-- `date.strftime("%Y-%m-%d")`. -/
def dateStrYmd (d : Datetime) : String :=
  pad4 d.year ++ "-" ++ pad2 d.month ++ "-" ++ pad2 d.day

/-- `date.isoformat()`, the format the interactions table stores. -/
def isoformat (d : Datetime) : String :=
  dateStrYmd d ++ "T" ++ pad2 d.hour ++ ":" ++ pad2 d.minute ++ ":" ++ pad2 d.second

/-- The invariants Python's `datetime` guarantees, restricted to years
with four decimal digits so that `strftime("%Y")` and `isoformat`
agree on the year text. -/
def DatetimeWF (d : Datetime) : Prop :=
  1000 ≤ d.year ∧ d.year ≤ 9999 ∧ 1 ≤ d.month ∧ d.month ≤ 12 ∧
    1 ≤ d.day ∧ d.day ≤ 31 ∧ d.hour ≤ 23 ∧ d.minute ≤ 59 ∧ d.second ≤ 59

structure Utterance where
  speaker : String
  text : String
deriving DecidableEq, Inhabited

/-- The `{text, utterances}` transcript dictionary both ingestion paths
converge on. -/
structure Transcript where
  text : String
  utterances : List Utterance
deriving DecidableEq, Inhabited

structure Person where
  name : String
  current_company : String
  type : PersonType
  background : String
  state_of_play : String
  last_delta : String
  interaction_ids : List Nat
deriving DecidableEq

structure Interaction where
  id : Nat
  person_name : String
  date : Datetime
  transcript : Transcript
  takeaways : List String
  tags : List Tag
deriving DecidableEq, Inhabited

structure Followup where
  id : Nat
  person_name : String
  interaction_id : Nat
  date_slug : String
  item : String
  status : String
deriving DecidableEq

/-! ## Storage layer (`backend/database.py`)

The SQLite database is modelled as in-memory row lists in insertion
order; `AUTOINCREMENT` ids are modelled by `nextInteractionId` /
`nextFollowupId` counters.  The `persons` table has no
`interaction_ids` column — `get_person` / `list_persons` recompute that
list from the `interactions` table on every fetch — so the
`interaction_ids` field of a stored `Person` row is ignored and
overwritten on fetch, exactly as in the source. -/

structure DB where
  persons : List Person
  interactions : List Interaction
  followups : List Followup
  nextInteractionId : Nat
  nextFollowupId : Nat
deriving DecidableEq

/-- The database invariants the SQLite layer guarantees: `AUTOINCREMENT`
ids are pairwise distinct and below the next id to be handed out, and
every stored timestamp satisfies `datetime`'s invariants. -/
def DBWF (db : DB) : Prop :=
  db.interactions.Pairwise (fun a b => a.id ≠ b.id)
  ∧ (∀ i ∈ db.interactions, i.id < db.nextInteractionId)
  ∧ (∀ i ∈ db.interactions, DatetimeWF i.date)

/-- `SELECT id FROM interactions WHERE person_name = ? ORDER BY date`. -/
def interactionIdsFor (db : DB) (name : String) : List Nat :=
  (pySort (fun a b => lexLe (isoformat a.date).data (isoformat b.date).data)
    (db.interactions.filter (fun i => i.person_name == name))).map (fun i => i.id)

/-- `get_person` (database.py): fetch the row by name and recompute its
interaction-id list from the interactions table. -/
def get_person (db : DB) (name : String) : Option Person :=
  (db.persons.find? (fun p => p.name == name)).map
    (fun p => { p with interaction_ids := interactionIdsFor db name })

/-- `list_persons` (no type filter). -/
def list_persons (db : DB) : List Person :=
  db.persons.map (fun p => { p with interaction_ids := interactionIdsFor db p.name })

/-- `get_interactions`: `SELECT * FROM interactions WHERE person_name = ?
ORDER BY date`. -/
def get_interactions (db : DB) (person_name : String) : List Interaction :=
  pySort (fun a b => lexLe (isoformat a.date).data (isoformat b.date).data)
    (db.interactions.filter (fun i => i.person_name == person_name))

/-- `get_interactions_by_date`: `SELECT * FROM interactions WHERE
person_name = ? AND date LIKE '<date_str>%' ORDER BY id`.  The LIKE
pattern is a prefix match on the stored ISO string (`date_str` produced
by `strftime("%Y-%m-%d")` contains no LIKE metacharacters). -/
def get_interactions_by_date (db : DB) (person_name : String) (date_str : String) :
    List Interaction :=
  pySort (fun a b => a.id ≤ b.id)
    (db.interactions.filter
      (fun i => i.person_name == person_name && pyStartsWith (isoformat i.date) date_str))

/-- `create_interaction`: INSERT with an AUTOINCREMENT id, returning the
created row. -/
def create_interaction (db : DB) (person_name : String) (date : Datetime)
    (transcript : Transcript) (takeaways : List String) (tags : List Tag) :
    Interaction × DB :=
  let i : Interaction :=
    { id := db.nextInteractionId, person_name := person_name, date := date,
      transcript := transcript, takeaways := takeaways, tags := tags }
  (i, { db with interactions := db.interactions ++ [i],
                nextInteractionId := db.nextInteractionId + 1 })

/-- `create_followups`: bulk INSERT of `'open'` rows; returns `[]` and
writes nothing when `items` is empty. -/
def create_followups (db : DB) (person_name : String) (interaction_id : Nat)
    (date_slug : String) (items : List String) : List Followup × DB :=
  if items.isEmpty then ([], db)
  else
    let rows := items.enum.map (fun e =>
      { id := db.nextFollowupId + e.1, person_name := person_name,
        interaction_id := interaction_id, date_slug := date_slug,
        item := e.2, status := "open" : Followup })
    (rows, { db with followups := db.followups ++ rows,
                     nextFollowupId := db.nextFollowupId + items.length })

/-- `update_person_state`: UPDATE of `state_of_play` / `last_delta` by
name. -/
def update_person_state (db : DB) (name state_of_play last_delta : String) : DB :=
  { db with persons := db.persons.map (fun p =>
      if p.name == name then { p with state_of_play := state_of_play, last_delta := last_delta }
      else p) }

/-- `update_person_background`: UPDATE of `background` by name. -/
def update_person_background (db : DB) (name background : String) : DB :=
  { db with persons := db.persons.map (fun p =>
      if p.name == name then { p with background := background } else p) }

/-! ## Virtual filesystem (`backend/vfs.py`) -/

inductive NodeType
  | root
  | person_dir
  | person_file
  | interactions_dir
  | interaction_dir
  | interaction_file
deriving DecidableEq

structure VFSNode where
  node_type : NodeType
  path : String
  name : String
  is_dir : Bool
  children : List String
  content : String
deriving DecidableEq

/-- `_name_to_slug`: spaces to underscores. -/
def _name_to_slug (name : String) : String :=
  ⟨name.data.map (fun c => if c = ' ' then '_' else c)⟩

/-- `_slug_to_name`: underscores to spaces. -/
def _slug_to_name (slug : String) : String :=
  ⟨slug.data.map (fun c => if c = '_' then ' ' else c)⟩

/-- One step of building the `by_date` `defaultdict(list)`: append the
interaction to its date's group, creating the group at the end of the
dict (Python dicts preserve key insertion order). -/
def insertByDate (acc : List (String × List Interaction)) (k : String)
    (i : Interaction) : List (String × List Interaction) :=
  match acc with
  | [] => [(k, [i])]
  | e :: rest =>
    if e.1 == k then (e.1, e.2 ++ [i]) :: rest
    else e :: insertByDate rest k i

/-- The `by_date` dictionary of `_build_date_slugs`. -/
def groupByDate (l : List Interaction) : List (String × List Interaction) :=
  l.foldl (fun acc i => insertByDate acc (dateStrYmd i.date) i) []

/-- `for idx, interaction in enumerate(group, start=1): slug_map[f"{date_str}_{idx}"] = interaction`. -/
def enumSlugs (date_str : String) (start : Nat) : List Interaction → List (String × Interaction)
  | [] => []
  | i :: rest => (date_str ++ "_" ++ natToStr start, i) :: enumSlugs date_str (start + 1) rest

/-- `_build_date_slugs`: group a person's interactions by calendar date
(`strftime("%Y-%m-%d")`), sort each group by id ascending, and emit one
slug per interaction: the bare date for a singleton group, and
`date_1 … date_N` (via `enumerate(group, start=1)`) for a larger group.
The slug map is an association list with pairwise-distinct keys
(distinct dates never collide with suffixed slugs), so it carries the
same information as the Python dict. -/
def _build_date_slugs (interactions : List Interaction) : List (String × Interaction) :=
  (groupByDate interactions).flatMap (fun e =>
    let sorted := pySort (fun a b => a.id ≤ b.id) e.2
    if sorted.length = 1 then [(e.1, sorted.headI)]
    else enumSlugs e.1 1 sorted)

/-- `date_slug in slug_map` / `slug_map[date_slug]` as one lookup. -/
def lookupSlug (slug_map : List (String × Interaction)) (date_slug : String) :
    Option Interaction :=
  (slug_map.find? (fun e => e.1 == date_slug)).map (fun e => e.2)

/-- `_format_transcript`. -/
def _format_transcript (interaction : Interaction) : String :=
  match interaction.transcript.utterances with
  | [] =>
    if interaction.transcript.text == "" then "(no transcript available)"
    else interaction.transcript.text
  | us =>
    String.intercalate "\n" (us.map (fun u => u.speaker ++ ": " ++ u.text))

/-- `_format_takeaways`. -/
def _format_takeaways (interaction : Interaction) : String :=
  match interaction.takeaways with
  | [] => "(no takeaways)"
  | ts => String.intercalate "\n" (ts.map (fun t => "- " ++ t))

/-- `_format_tags`. -/
def _format_tags (interaction : Interaction) : String :=
  match interaction.tags with
  | [] => "(no tags)"
  | ts => String.intercalate "\n" (ts.map Tag.value)

/-- `_format_info`. -/
def _format_info (person : Person) : String :=
  String.intercalate "\n"
    ["Name:         " ++ person.name,
     "Company:      " ++ person.current_company,
     "Type:         " ++ person.type.value,
     "Interactions: " ++ natToStr person.interaction_ids.length]

def PERSON_FILES : List String := ["info", "background", "state", "delta"]

def INTERACTION_FILES : List String := ["transcript", "takeaways", "tags"]

/-- The two normalisation lines at the top of `resolve`:
`path = path.rstrip("/") or "/"` followed by
`parts = [p for p in path.split("/") if p]`. -/
def computeParts (path : List Char) : List (List Char) :=
  let r := rstripSlash path
  let norm := if r = [] then ['/'] else r
  (splitSlash norm).filter (fun s => !s.isEmpty)

/-- `resolve`: parse a virtual path and return the corresponding node,
or `none`.  A direct transcription of the branch structure of
`vfs.resolve`. -/
def resolve (db : DB) (path : String) : Option VFSNode :=
  match computeParts path.data with
  | [] =>
    some { node_type := NodeType.root, path := "/", name := "/", is_dir := true,
           children := sortStrs ((list_persons db).map (fun p => _name_to_slug p.name ++ "/")),
           content := "" }
  | person_slug :: rest =>
    let slugStr : String := ⟨person_slug⟩
    let person_name := _slug_to_name slugStr
    match get_person db person_name with
    | none => none
    | some person =>
      match rest with
      | [] =>
        some { node_type := NodeType.person_dir, path := "/" ++ slugStr, name := slugStr,
               is_dir := true, children := PERSON_FILES ++ ["interactions/"], content := "" }
      | f :: rest2 =>
        let fStr : String := ⟨f⟩
        if rest2.isEmpty && PERSON_FILES.contains fStr then
          some { node_type := NodeType.person_file, path := "/" ++ slugStr ++ "/" ++ fStr,
                 name := fStr, is_dir := false, children := [],
                 content :=
                   if fStr == "info" then _format_info person
                   else if fStr == "background" then
                     (if person.background == "" then "(no background)" else person.background)
                   else if fStr == "state" then
                     (if person.state_of_play == "" then "(no state of play)" else person.state_of_play)
                   else
                     (if person.last_delta == "" then "(no delta)" else person.last_delta) }
        else if fStr == "interactions" then
          let slug_map := _build_date_slugs (get_interactions db person_name)
          match rest2 with
          | [] =>
            some { node_type := NodeType.interactions_dir,
                   path := "/" ++ slugStr ++ "/interactions", name := "interactions",
                   is_dir := true,
                   children := sortStrs (slug_map.map (fun e => e.1 ++ "/")), content := "" }
          | ds :: rest3 =>
            let dsStr : String := ⟨ds⟩
            match lookupSlug slug_map dsStr with
            | none => none
            | some interaction =>
              match rest3 with
              | [] =>
                some { node_type := NodeType.interaction_dir,
                       path := "/" ++ slugStr ++ "/interactions/" ++ dsStr, name := dsStr,
                       is_dir := true, children := INTERACTION_FILES, content := "" }
              | [g] =>
                let gStr : String := ⟨g⟩
                if INTERACTION_FILES.contains gStr then
                  some { node_type := NodeType.interaction_file,
                         path := "/" ++ slugStr ++ "/interactions/" ++ dsStr ++ "/" ++ gStr,
                         name := gStr, is_dir := false, children := [],
                         content :=
                           if gStr == "transcript" then _format_transcript interaction
                           else if gStr == "takeaways" then _format_takeaways interaction
                           else _format_tags interaction }
                else none
              | _ => none
        else none

/-- One fold step of the `resolve_path` segment loop: skip empty and
`"."` segments, pop on `".."` (a no-op on an empty stack), push
anything else. -/
def normStep (acc : List (List Char)) (p : List Char) : List (List Char) :=
  if p = [] ∨ p = ['.'] then acc
  else if p = ['.', '.'] then acc.dropLast
  else acc ++ [p]

def normalizeSegs (parts : List (List Char)) : List (List Char) :=
  parts.foldl normStep []

/-- `resolve_path` on character lists: textual normalisation of a
possibly-relative path against a cwd.  No storage access is involved —
the function inspects only its two string arguments. -/
def resolvePathChars (cwd user_path : List Char) : List Char :=
  let working :=
    if user_path.head? = some '/' then user_path
    else rstripSlash cwd ++ '/' :: user_path
  '/' :: joinSlash (normalizeSegs (splitSlash working))

/-- `resolve_path` (vfs.py): resolve a potentially relative path against
a cwd into an absolute, normalised virtual path. -/
def resolve_path (cwd user_path : String) : String :=
  ⟨resolvePathChars cwd.data user_path.data⟩

/-- A well-formed path segment: nonempty, not `"."`, not `".."`, and
containing no slash.  The segments `resolve_path` outputs are exactly
of this shape, and an absolute path is normalised precisely when it is
`'/'` followed by slash-joined `goodSeg` segments. -/
def goodSeg (s : List Char) : Prop :=
  s ≠ [] ∧ s ≠ ['.'] ∧ s ≠ ['.', '.'] ∧ '/' ∉ s

instance (s : List Char) : Decidable (goodSeg s) := by
  unfold goodSeg
  infer_instance

/-- The recursion of `_tree_recursive`, indexed by remaining fuel
instead of current depth: a call at depth `d` carries
`fuel = max_depth + 1 - d`, so the guard `depth > max_depth` becomes
`fuel = 0`, the `depth == 0` root-name test becomes `fuel = maxDepth + 1`,
and the recursive call at `depth + 1` carries `fuel - 1`.  The child
loop (`enumerate` with `is_last = i == len(children) - 1`, the connector
glyphs, and the recursive resolution of `<path>/<child>` for
directory-children) is transcribed inside the `flatMap`. -/
def treeRec (db : DB) (maxDepth : Nat) : Nat → String → VFSNode → String → List String
  | 0, _, _, _ => []
  | fuel + 1, path, node, pre =>
    let nameLine : List String :=
      if fuel = maxDepth then [if node.name == "/" then "." else node.name] else []
    if !node.is_dir then nameLine
    else
      nameLine ++ node.children.enum.flatMap (fun ic =>
        let isLast := ic.1 == node.children.length - 1
        let line := pre ++ (if isLast then "└── " else "├── ") ++ ic.2
        let sub :=
          if endsWithSlash ic.2 then
            let child_path := rstrip path ++ "/" ++ rstrip ic.2
            match resolve db child_path with
            | some child_node =>
              treeRec db maxDepth fuel child_path child_node
                (pre ++ (if isLast then "    " else "│   "))
            | none => []
          else []
        line :: sub)

/-- `tree`: render a tree view starting from `path`, bounded by
`max_depth`. -/
def tree (db : DB) (path : String) (max_depth : Nat) : String :=
  match resolve db path with
  | none => "Path not found: " ++ path
  | some node =>
    String.intercalate "\n" (treeRec db max_depth (max_depth + 1) path node "")

/-! ## Ingestion pipeline (`backend/services/ingestion.py`)

The AI collaborator (`services/analysis.py`) is an opaque oracle
record; the pipeline's observable behaviour is its return value, the
resulting database, and an ordered event log recording every oracle
invocation and every storage write. -/

/-- The AI collaborator's request/response surface, as the pipeline
calls it. -/
structure AI where
  diarize_transcript : String → String → String → Transcript × String
  analyze_interaction : Transcript → PersonType → String → String → List String × List Tag
  generate_rolling_update : String → List String → String × String
  extract_followups : Transcript → String → String → List String
  generate_background : String → String → List String → String

inductive Event
  | diarizeCall
  | analyzeCall
  | rollingCall
  | extractCall
  | backgroundCall
  | interactionWrite
  | followupWrite
  | stateWrite
  | backgroundWrite
deriving DecidableEq

/-- The speaker-relabelling loop of `_run_shared_pipeline`: walk the
utterances once, mapping the subject's letter to the person's name and
each other distinct letter, in first-seen order, to
`"Interviewer 1"`, `"Interviewer 2"`, …; a letter seen again reuses its
existing label.  The Python `speaker_map` dict is an association list
with distinct keys. -/
def relabel_speakers_aux (subject_speaker person_name : String) :
    List Utterance → List (String × String) → Nat → List Utterance
  | [], _, _ => []
  | u :: rest, speaker_map, interviewer_count =>
    match speaker_map.find? (fun e => e.1 == u.speaker) with
    | some e =>
      { u with speaker := e.2 } ::
        relabel_speakers_aux subject_speaker person_name rest speaker_map interviewer_count
    | none =>
      if u.speaker == subject_speaker then
        { u with speaker := person_name } ::
          relabel_speakers_aux subject_speaker person_name rest
            (speaker_map ++ [(u.speaker, person_name)]) interviewer_count
      else
        let lbl := "Interviewer " ++ natToStr (interviewer_count + 1)
        { u with speaker := lbl } ::
          relabel_speakers_aux subject_speaker person_name rest
            (speaker_map ++ [(u.speaker, lbl)]) (interviewer_count + 1)

/-- Speaker relabelling applied to a transcript: the Python code
mutates only the `speaker` field of each utterance in place; the
top-level `text` field is untouched. -/
def relabel_speakers (t : Transcript) (subject_speaker person_name : String) : Transcript :=
  { t with utterances := relabel_speakers_aux subject_speaker person_name t.utterances [] 0 }

/-- The pipeline's own date-slug computation (ingestion.py lines 90–97):
`date_str = date.strftime("%Y-%m-%d")`; fetch the person's same-date
interactions ordered by id; the bare date if there is at most one,
otherwise `date_str_idx` where `idx` is the 1-based position of the
created interaction in that list. -/
def pipelineDateSlug (db : DB) (person_name : String) (date : Datetime)
    (interaction_id : Nat) : String :=
  let date_str := dateStrYmd date
  let same_date := get_interactions_by_date db person_name date_str
  if same_date.length ≤ 1 then date_str
  else date_str ++ "_" ++ natToStr (same_date.findIdx (fun ix => ix.id == interaction_id) + 1)

/-- `_run_shared_pipeline`: relabel speakers, analyze, generate the
rolling update, store the interaction, derive follow-ups (computing the
date slug when any were extracted), update the person's state, and
auto-generate a background when the passed-in person snapshot had a
blank background and an empty interaction list. -/
def _run_shared_pipeline (ai : AI) (db : DB) (transcript : Transcript)
    (subject_speaker person_name : String) (person : Person) (date : Datetime) :
    Interaction × DB × List Event :=
  let t := relabel_speakers transcript subject_speaker person_name
  let a := ai.analyze_interaction t person.type person_name person_name
  let takeaways := a.1
  let tags := a.2
  let g := ai.generate_rolling_update person.state_of_play takeaways
  let delta := g.1
  let updated_state := g.2
  let c := create_interaction db person_name date t takeaways tags
  let interaction := c.1
  let db1 := c.2
  let followup_items := ai.extract_followups t person_name person_name
  let fres : DB × List Event :=
    if followup_items.isEmpty then (db1, [])
    else
      let date_slug := pipelineDateSlug db1 person_name date interaction.id
      ((create_followups db1 person_name interaction.id date_slug followup_items).2,
        [Event.followupWrite])
  let db3 := update_person_state fres.1 person_name updated_state delta
  let bres : DB × List Event :=
    if pyStrip person.background == "" && person.interaction_ids.isEmpty then
      (update_person_background db3 person_name
        (ai.generate_background person_name person.current_company takeaways),
        [Event.backgroundCall, Event.backgroundWrite])
    else (db3, [])
  (interaction, bres.1,
    [Event.analyzeCall, Event.rollingCall, Event.interactionWrite, Event.extractCall]
      ++ fres.2 ++ [Event.stateWrite] ++ bres.2)

inductive PipelineError
  | personNotFound
  | emptyTranscript
deriving DecidableEq

/-- `ingest_transcript`, from the point where the input file has been
found on disk and its raw text read (file-system existence is outside
the model): look up the person (ValueError if absent), reject raw text
that is empty after stripping (ValueError, before any AI call), then
diarize and run the shared pipeline. -/
def ingest_transcript (ai : AI) (db : DB) (raw_text person_name : String)
    (date : Datetime) (context : String) :
    Except PipelineError Interaction × DB × List Event :=
  match get_person db person_name with
  | none => (Except.error PipelineError.personNotFound, db, [])
  | some person =>
    if pyStrip raw_text == "" then (Except.error PipelineError.emptyTranscript, db, [])
    else
      let d := ai.diarize_transcript raw_text person_name context
      let r := _run_shared_pipeline ai db d.1 d.2 person_name person date
      (Except.ok r.1, r.2.1, Event.diarizeCall :: r.2.2)

/-! ## Concrete fixtures

Small concrete databases, persons and interactions used to instantiate
the theorems below at closed inputs. -/

def exDate905 : Datetime := ⟨2025, 9, 5, 10, 0, 0⟩

def exDate906 : Datetime := ⟨2025, 9, 6, 11, 30, 0⟩

def exTranscript : Transcript :=
  ⟨"hello yes bye", [⟨"A", "hello"⟩, ⟨"B", "yes"⟩, ⟨"A", "bye"⟩]⟩

def exI10 : Interaction :=
  ⟨10, "Jane Doe", exDate905, exTranscript, ["k1"], [Tag.pricing]⟩

def exI14 : Interaction :=
  ⟨14, "Jane Doe", exDate905, exTranscript, [], []⟩

def exI20 : Interaction :=
  ⟨20, "Jane Doe", exDate906, exTranscript, [], []⟩

def exJane : Person :=
  ⟨"Jane Doe", "Acme", PersonType.customer, "", "", "", []⟩

/-- A person whose stored name contains an underscore. -/
def exUnder : Person :=
  ⟨"Jane_Doe", "Acme", PersonType.customer, "", "", "", []⟩

/-- One person, no interactions. -/
def exDB0 : DB := ⟨[exJane], [], [], 1, 1⟩

/-- One person, one interaction. -/
def exDB1 : DB := ⟨[exJane], [exI10], [], 21, 1⟩

/-- One person whose name contains an underscore. -/
def exDBU : DB := ⟨[exUnder], [], [], 1, 1⟩

/-- A deterministic AI collaborator stub. -/
def exAI : AI :=
  { diarize_transcript := fun _ _ _ => (exTranscript, "A"),
    analyze_interaction := fun _ _ _ _ => (["t1"], [Tag.market]),
    generate_rolling_update := fun _ _ => ("delta", "state"),
    extract_followups := fun _ _ _ => ["call back"],
    generate_background := fun _ _ _ => "generated bg" }

/-! ## Theorems -/

theorem relabel_aux_text (ss pn : String) :
    ∀ (us : List Utterance) (sm : List (String × String)) (cnt : Nat),
      (relabel_speakers_aux ss pn us sm cnt).map Utterance.text = us.map Utterance.text := by
  intro us
  induction us with
  | nil => intro sm cnt; rfl
  | cons u rest ih =>
    intro sm cnt
    unfold relabel_speakers_aux
    cases h : sm.find? (fun e => e.1 == u.speaker) with
    | some e => simp [ih]
    | none =>
      by_cases hs : (u.speaker == ss) = true <;> simp [hs, ih]

/-- C10: the speaker-relabelling step modifies only the `speaker` field
of each utterance — the number of utterances, their order, every
utterance's `text` field, and the transcript's top-level `text` field
are unchanged — and the interaction persisted by the shared pipeline
stores exactly the relabelled transcript. -/
theorem c10_relabel_frame (t : Transcript) (ss pn : String) (ai : AI) (db : DB)
    (person : Person) (date : Datetime) :
    (relabel_speakers t ss pn).utterances.length = t.utterances.length
    ∧ (relabel_speakers t ss pn).utterances.map Utterance.text = t.utterances.map Utterance.text
    ∧ (relabel_speakers t ss pn).text = t.text
    ∧ (_run_shared_pipeline ai db t ss pn person date).1.transcript = relabel_speakers t ss pn := by
  refine ⟨?_, relabel_aux_text ss pn t.utterances [] 0, rfl, rfl⟩
  have h := congrArg List.length (relabel_aux_text ss pn t.utterances [] 0)
  simpa using h

/-- C6: ingesting a transcript whose content is empty after whitespace
trimming, for an existing person, fails with the empty-input
`ValueError` and produces no AI-collaborator call and no storage
write (the database is returned unchanged and the event log is empty). -/
theorem c6_empty_transcript (ai : AI) (db : DB) (raw pn : String) (d : Datetime)
    (ctx : String) (p : Person)
    (hp : get_person db pn = some p) (hempty : pyStrip raw = "") :
    ingest_transcript ai db raw pn d ctx =
      (Except.error PipelineError.emptyTranscript, db, []) := by
  unfold ingest_transcript
  rw [hp]
  simp [hempty]

theorem c6_empty_transcript_witness :
    ingest_transcript exAI exDB0 "  \n " "Jane Doe" exDate905 "" =
      (Except.error PipelineError.emptyTranscript, exDB0, []) :=
  c6_empty_transcript exAI exDB0 "  \n " "Jane Doe" exDate905 ""
    { exJane with interaction_ids := [] } (by decide) (by decide)

/-! ### Path-splitting and normalisation lemmas -/

theorem splitSlashAux_append_slash (b : List Char) :
    ∀ (a acc : List Char),
      splitSlashAux (a ++ '/' :: b) acc = splitSlashAux a acc ++ splitSlash b := by
  intro a
  induction a with
  | nil => intro acc; simp [splitSlashAux, splitSlash]
  | cons c cs ih =>
    intro acc
    by_cases hc : c = '/' <;> simp [splitSlashAux, hc, ih]

theorem splitSlash_append_slash (a b : List Char) :
    splitSlash (a ++ '/' :: b) = splitSlash a ++ splitSlash b :=
  splitSlashAux_append_slash b a []

theorem splitSlashAux_no_slash :
    ∀ (a acc : List Char), '/' ∉ a → splitSlashAux a acc = [acc.reverse ++ a] := by
  intro a
  induction a with
  | nil => intro acc _; simp [splitSlashAux]
  | cons c cs ih =>
    intro acc h
    have hc : ¬ c = '/' := fun hcc => h (hcc ▸ List.mem_cons_self c cs)
    have hcs : '/' ∉ cs := fun hm => h (List.mem_cons_of_mem c hm)
    simp [splitSlashAux, hc, ih _ hcs]

theorem splitSlash_no_slash (a : List Char) (h : '/' ∉ a) : splitSlash a = [a] := by
  simpa using splitSlashAux_no_slash a [] h

theorem splitSlash_cons_slash (l : List Char) :
    splitSlash ('/' :: l) = [] :: splitSlash l := by
  simp [splitSlash, splitSlashAux]

theorem mem_splitSlashAux_no_slash :
    ∀ (l acc : List Char), '/' ∉ acc → ∀ s ∈ splitSlashAux l acc, '/' ∉ s := by
  intro l
  induction l with
  | nil =>
    intro acc hacc s hs
    simp [splitSlashAux] at hs
    subst hs
    simpa using hacc
  | cons c cs ih =>
    intro acc hacc s hs
    by_cases hc : c = '/'
    · rw [hc] at hs
      simp [splitSlashAux] at hs
      rcases hs with h | h
      · subst h; simpa using hacc
      · exact ih [] (by simp) s h
    · simp [splitSlashAux, hc] at hs
      refine ih (c :: acc) ?_ s hs
      intro hm
      rcases List.mem_cons.mp hm with h | h
      · exact hc h.symm
      · exact hacc h

theorem mem_splitSlash_no_slash (l : List Char) :
    ∀ s ∈ splitSlash l, '/' ∉ s :=
  mem_splitSlashAux_no_slash l [] (by simp)

theorem splitSlash_joinSlash :
    ∀ (l : List (List Char)), l ≠ [] → (∀ s ∈ l, '/' ∉ s) →
      splitSlash (joinSlash l) = l := by
  intro l
  induction l with
  | nil => intro h; exact absurd rfl h
  | cons x xs ih =>
    intro _ hg
    cases xs with
    | nil => exact splitSlash_no_slash x (hg x (by simp))
    | cons y ys =>
      have hx : '/' ∉ x := hg x (by simp)
      have : joinSlash (x :: y :: ys) = x ++ '/' :: joinSlash (y :: ys) := rfl
      rw [this, splitSlash_append_slash, splitSlash_no_slash x hx,
        ih (by simp) (fun s hs => hg s (List.mem_cons_of_mem x hs))]
      rfl

/-- `rstripSlash` peels a block of trailing slashes. -/
theorem rstripSlash_decomp (l : List Char) :
    ∃ k, l = rstripSlash l ++ List.replicate k '/' := by
  refine ⟨(l.reverse.takeWhile (fun c => decide (c = '/'))).length, ?_⟩
  have hrep : (l.reverse.takeWhile (fun c => decide (c = '/'))).reverse =
      List.replicate (l.reverse.takeWhile (fun c => decide (c = '/'))).length '/' := by
    have hmem : ∀ b ∈ (l.reverse.takeWhile (fun c => decide (c = '/'))).reverse, b = '/' := by
      intro b hb
      have := List.mem_takeWhile_imp (List.mem_reverse.mp hb)
      exact of_decide_eq_true this
    have := List.eq_replicate_of_mem hmem
    simpa using this
  calc l = l.reverse.reverse := (List.reverse_reverse l).symm
    _ = (l.reverse.takeWhile (fun c => decide (c = '/')) ++
          l.reverse.dropWhile (fun c => decide (c = '/'))).reverse := by
        rw [List.takeWhile_append_dropWhile]
    _ = (l.reverse.dropWhile (fun c => decide (c = '/'))).reverse ++
          (l.reverse.takeWhile (fun c => decide (c = '/'))).reverse := by
        rw [List.reverse_append]
    _ = rstripSlash l ++ List.replicate
          (l.reverse.takeWhile (fun c => decide (c = '/'))).length '/' := by
        rw [hrep]; rfl

def filterParts (l : List Char) : List (List Char) :=
  (splitSlash l).filter (fun s => !s.isEmpty)

theorem filterParts_append_slash (x : List Char) :
    filterParts (x ++ ['/']) = filterParts x := by
  have : (['/'] : List Char) = '/' :: [] := rfl
  rw [filterParts, this, splitSlash_append_slash, List.filter_append]
  simp [splitSlash, splitSlashAux, filterParts]

theorem filterParts_append_replicate (x : List Char) :
    ∀ k, filterParts (x ++ List.replicate k '/') = filterParts x := by
  intro k
  induction k with
  | zero => simp
  | succ n ih =>
    rw [List.replicate_succ', ← List.append_assoc, filterParts_append_slash]
    exact ih

/-- The two normalisation lines at the top of `resolve` do not change
the nonempty-segment list. -/
theorem computeParts_eq_filterParts (l : List Char) :
    computeParts l = filterParts l := by
  unfold computeParts
  obtain ⟨k, hk⟩ := rstripSlash_decomp l
  by_cases h : rstripSlash l = []
  · have hl : filterParts l = [] := by
      rw [hk, h]
      simpa using filterParts_append_replicate [] k
    simp only [h, if_pos rfl]
    rw [hl]
    decide
  · simp only [h, if_neg h]
    conv_rhs => rw [hk]
    exact (filterParts_append_replicate (rstripSlash l) k).symm

theorem normStep_good (acc : List (List Char)) (p : List Char) (hp : goodSeg p) :
    normStep acc p = acc ++ [p] := by
  obtain ⟨h1, h2, h3, _⟩ := hp
  unfold normStep
  rw [if_neg (by simp [h1, h2]), if_neg h3]

theorem foldl_normStep_good :
    ∀ (l : List (List Char)) (acc : List (List Char)),
      (∀ s ∈ l, goodSeg s) → List.foldl normStep acc l = acc ++ l := by
  intro l
  induction l with
  | nil => intro acc _; simp
  | cons x xs ih =>
    intro acc h
    rw [List.foldl_cons, normStep_good acc x (h x (by simp)),
      ih _ (fun s hs => h s (List.mem_cons_of_mem x hs))]
    simp

theorem foldl_normStep_goodSeg :
    ∀ (ps : List (List Char)) (acc : List (List Char)),
      (∀ s ∈ ps, '/' ∉ s) → (∀ s ∈ acc, goodSeg s) →
      ∀ s ∈ List.foldl normStep acc ps, goodSeg s := by
  intro ps
  induction ps with
  | nil => intro acc _ hacc; exact hacc
  | cons p rest ih =>
    intro acc hps hacc
    rw [List.foldl_cons]
    refine ih _ (fun s hs => hps s (List.mem_cons_of_mem p hs)) ?_
    intro s hs
    simp only [normStep] at hs
    split_ifs at hs with h1 h2
    · exact hacc s hs
    · exact hacc s ((List.dropLast_sublist acc).subset hs)
    · rcases List.mem_append.mp hs with h | h
      · exact hacc s h
      · have hsp : s = p := by simpa using h
        subst hsp
        push_neg at h1
        exact ⟨h1.1, h1.2, h2, hps s (by simp)⟩

theorem normalizeSegs_goodSeg (ps : List (List Char))
    (hps : ∀ s ∈ ps, '/' ∉ s) :
    ∀ s ∈ normalizeSegs ps, goodSeg s :=
  foldl_normStep_goodSeg ps [] hps (by simp)

theorem rstripSlash_of_getLast (l : List Char) (h : l.getLast? ≠ some '/') :
    rstripSlash l = l := by
  unfold rstripSlash
  cases hr : l.reverse with
  | nil =>
    have : l = [] := by simpa using congrArg List.reverse hr
    simp [this]
  | cons c cs =>
    have hc : c ≠ '/' := by
      intro hcc
      apply h
      rw [← List.head?_reverse, hr, hcc]
      rfl
    rw [List.dropWhile_cons, if_neg (by simp [hc])]
    rw [← hr, List.reverse_reverse]

theorem getLast_of_noSlash (x : List Char) (hne : x ≠ []) (hx : '/' ∉ x) :
    ∃ c, x.getLast? = some c ∧ c ≠ '/' := by
  refine ⟨x.getLast hne, List.getLast?_eq_getLast x hne, ?_⟩
  intro hc
  exact hx (hc ▸ List.getLast_mem hne)

theorem getLast_joinSlash :
    ∀ (l : List (List Char)), l ≠ [] → (∀ s ∈ l, goodSeg s) →
      ∃ c, (joinSlash l).getLast? = some c ∧ c ≠ '/' := by
  intro l
  induction l with
  | nil => intro h; exact absurd rfl h
  | cons x xs ih =>
    intro _ hg
    cases xs with
    | nil =>
      have hx := hg x (by simp)
      exact getLast_of_noSlash x hx.1 hx.2.2.2
    | cons y ys =>
      obtain ⟨c, hc, hcne⟩ := ih (by simp) (fun s hs => hg s (List.mem_cons_of_mem x hs))
      refine ⟨c, ?_, hcne⟩
      have hjoin : joinSlash (x :: y :: ys) = x ++ '/' :: joinSlash (y :: ys) := rfl
      have h2 : ('/' :: joinSlash (y :: ys)) = ['/'] ++ joinSlash (y :: ys) := rfl
      rw [hjoin, List.getLast?_append, h2, List.getLast?_append, hc]
      rfl

theorem rstripSlash_slash_joinSlash (l : List (List Char)) (hne : l ≠ [])
    (hg : ∀ s ∈ l, goodSeg s) :
    rstripSlash ('/' :: joinSlash l) = '/' :: joinSlash l := by
  obtain ⟨c, hc, hcne⟩ := getLast_joinSlash l hne hg
  apply rstripSlash_of_getLast
  have h2 : ('/' :: joinSlash l) = ['/'] ++ joinSlash l := rfl
  rw [h2, List.getLast?_append, hc]
  simp [hcne]

/-- Applying `".."` to an absolute normalised path drops its last
segment. -/
theorem resolvePathChars_dotdot (l : List (List Char)) (hg : ∀ s ∈ l, goodSeg s) :
    resolvePathChars ('/' :: joinSlash l) ['.', '.'] = '/' :: joinSlash l.dropLast := by
  cases l with
  | nil => decide
  | cons x xs =>
    have hne : (x :: xs) ≠ [] := by simp
    show '/' :: joinSlash (normalizeSegs (splitSlash
        (rstripSlash ('/' :: joinSlash (x :: xs)) ++ '/' :: ['.', '.']))) = _
    rw [rstripSlash_slash_joinSlash _ hne hg]
    have hnos : ∀ s ∈ (x :: xs), '/' ∉ s := fun s hs => (hg s hs).2.2.2
    have hsplit : splitSlash (('/' :: joinSlash (x :: xs)) ++ '/' :: ['.', '.']) =
        ([] :: (x :: xs)) ++ [['.', '.']] := by
      have hcons : ('/' :: joinSlash (x :: xs)) ++ '/' :: ['.', '.'] =
          '/' :: (joinSlash (x :: xs) ++ '/' :: ['.', '.']) := rfl
      rw [hcons, splitSlash_cons_slash, splitSlash_append_slash,
        splitSlash_joinSlash _ hne hnos, splitSlash_no_slash ['.', '.'] (by decide)]
      rfl
    rw [hsplit]
    unfold normalizeSegs
    have h0 : normStep [] [] = [] := by simp [normStep]
    have hinner : List.foldl normStep [] ([] :: x :: xs) = x :: xs := by
      rw [List.foldl_cons, h0, foldl_normStep_good _ [] hg]
      rfl
    have hdd : normStep (x :: xs) ['.', '.'] = (x :: xs).dropLast := by
      simp [normStep]
    rw [List.foldl_append, hinner]
    simp [hdd]

theorem iterate_dotdot_root :
    ∀ (n : Nat) (l : List (List Char)), l.length = n → (∀ s ∈ l, goodSeg s) →
      (fun c => resolve_path c "..")^[n] (⟨'/' :: joinSlash l⟩ : String) = "/" := by
  intro n
  induction n with
  | zero =>
    intro l hlen _
    have : l = [] := List.length_eq_zero.mp hlen
    subst this
    rfl
  | succ n ih =>
    intro l hlen hg
    rw [Function.iterate_succ_apply]
    have hstep : resolve_path (⟨'/' :: joinSlash l⟩ : String) ".." =
        (⟨'/' :: joinSlash l.dropLast⟩ : String) := by
      apply String.ext
      show resolvePathChars ('/' :: joinSlash l) ("..".data) = '/' :: joinSlash l.dropLast
      exact resolvePathChars_dotdot l hg
    show (fun c => resolve_path c "..")^[n] (resolve_path ⟨'/' :: joinSlash l⟩ "..") = "/"
    rw [hstep]
    refine ih l.dropLast ?_ ?_
    · rw [List.length_dropLast, hlen]
      rfl
    · intro s hs
      exact hg s ((List.dropLast_sublist l).subset hs)

/-- C4: `resolve_path(cwd, "..")` never fails (it is a total function of
its two string arguments, touching no storage), iterating it from any
cwd string reaches `"/"` after finitely many applications, and a `".."`
above root is clamped: `resolve_path("/", "..") = "/"`. -/
theorem c4_parent_iteration :
    (∀ cwd : String, ∃ k, (fun c => resolve_path c "..")^[k] cwd = "/")
    ∧ resolve_path "/" ".." = "/" := by
  constructor
  · intro cwd
    refine ⟨(normalizeSegs (splitSlash (rstripSlash cwd.data ++ '/' :: ['.', '.']))).length + 1, ?_⟩
    have hfirst : resolve_path cwd ".." =
        (⟨'/' :: joinSlash (normalizeSegs
            (splitSlash (rstripSlash cwd.data ++ '/' :: ['.', '.'])))⟩ : String) := by
      apply String.ext
      show '/' :: joinSlash (normalizeSegs (splitSlash
          (rstripSlash cwd.data ++ '/' :: ['.', '.']))) = _
      rfl
    have hgood : ∀ s ∈ normalizeSegs
        (splitSlash (rstripSlash cwd.data ++ '/' :: ['.', '.'])), goodSeg s :=
      normalizeSegs_goodSeg _ (mem_splitSlash_no_slash _)
    rw [Function.iterate_succ_apply]
    show (fun c => resolve_path c "..")^[_] (resolve_path cwd "..") = "/"
    rw [hfirst]
    exact iterate_dotdot_root _ _ rfl hgood
  · decide

/-- C5: `resolve_path` is idempotent on normalised absolute paths — for
any cwd, a path that is `'/'` followed by slash-joined well-formed
segments (no empty, `"."` or `".."` segments) resolves to itself. -/
theorem c5_resolve_path_idempotent (cwd p : String) (l : List (List Char))
    (hp : p.data = '/' :: joinSlash l) (hg : ∀ s ∈ l, goodSeg s) :
    resolve_path cwd p = p := by
  apply String.ext
  show resolvePathChars cwd.data p.data = p.data
  rw [hp]
  show '/' :: joinSlash (normalizeSegs (splitSlash ('/' :: joinSlash l))) = _
  cases l with
  | nil => decide
  | cons x xs =>
    have hne : (x :: xs) ≠ [] := by simp
    have hnos : ∀ s ∈ (x :: xs), '/' ∉ s := fun s hs => (hg s hs).2.2.2
    rw [splitSlash_cons_slash, splitSlash_joinSlash _ hne hnos]
    unfold normalizeSegs
    rw [List.foldl_cons]
    have h0 : normStep [] [] = [] := by simp [normStep]
    rw [h0, foldl_normStep_good _ [] hg]
    rfl

theorem c5_resolve_path_idempotent_witness :
    resolve_path "/anything/else" "/a/b" = "/a/b" :=
  c5_resolve_path_idempotent "/anything/else" "/a/b" [['a'], ['b']] (by decide) (by decide)

/-! ### Sorting lemmas -/

theorem insertSorted_perm (le : α → α → Bool) (x : α) :
    ∀ l : List α, (insertSorted le x l).Perm (x :: l) := by
  intro l
  induction l with
  | nil => simp [insertSorted]
  | cons y ys ih =>
    unfold insertSorted
    by_cases h : le x y = true
    · rw [if_pos h]
    · rw [if_neg h]
      exact (ih.cons y).trans (List.Perm.swap x y ys)

theorem pySort_perm (le : α → α → Bool) : ∀ l : List α, (pySort le l).Perm l := by
  intro l
  induction l with
  | nil => simp [pySort]
  | cons x xs ih =>
    exact (insertSorted_perm le x (pySort le xs)).trans (ih.cons x)

theorem mem_sortStrs {s : String} {l : List String} : s ∈ sortStrs l ↔ s ∈ l :=
  (pySort_perm _ l).mem_iff

/-! ### Slug round-trip and path-shape lemmas -/

/-- Encoding then decoding a name replaces its underscores (and its
spaces, which went to underscores and back) by spaces: it equals the
plain underscores-to-spaces decoding of the original name. -/
theorem slug_name_roundtrip (nm : String) :
    _slug_to_name (_name_to_slug nm) = _slug_to_name nm := by
  apply String.ext
  show ((nm.data.map (fun c => if c = ' ' then '_' else c)).map
      (fun c => if c = '_' then ' ' else c)) = nm.data.map (fun c => if c = '_' then ' ' else c)
  rw [List.map_map]
  apply List.map_congr_left
  intro c _
  by_cases h1 : c = ' ' <;> by_cases h2 : c = '_' <;> simp [Function.comp, h1, h2]

theorem name_to_slug_no_slash {nm : String} (h : '/' ∉ nm.data) :
    '/' ∉ (_name_to_slug nm).data := by
  intro hm
  have : '/' ∈ nm.data.map (fun c => if c = ' ' then '_' else c) := hm
  obtain ⟨c, hc, hcc⟩ := List.mem_map.mp this
  by_cases hs : c = ' '
  · rw [hs] at hcc
    simp at hcc
  · rw [if_neg hs] at hcc
    exact h (hcc ▸ hc)

theorem computeParts_single_seg (s : List Char) (hne : s ≠ []) (hnos : '/' ∉ s) :
    computeParts ('/' :: s) = [s] := by
  rw [computeParts_eq_filterParts]
  unfold filterParts
  rw [splitSlash_cons_slash, splitSlash_no_slash s hnos]
  simp [hne]

theorem computeParts_append_seg (p seg : List Char) (hne : seg ≠ []) (hnos : '/' ∉ seg) :
    computeParts (p ++ '/' :: seg) = computeParts p ++ [seg] := by
  rw [computeParts_eq_filterParts, computeParts_eq_filterParts]
  unfold filterParts
  rw [splitSlash_append_slash, List.filter_append, splitSlash_no_slash seg hnos]
  simp [hne]

/-- C9: the name↔slug mapping is not invertible at the resolver
interface.  For a person whose stored name contains an underscore (and
no slash), when no person's name equals the underscores-to-spaces
decoding of that name, the root listing contains the person's slug as a
child, yet resolving `/<slug>` returns absent, because `resolve`
decodes the slug by replacing every underscore with a space before the
lookup. -/
theorem c9_slug_not_invertible (db : DB) (p : Person)
    (hmem : p ∈ db.persons)
    (hunder : '_' ∈ p.name.data)
    (hnoslash : '/' ∉ p.name.data)
    (hnone : ∀ q ∈ db.persons, q.name ≠ _slug_to_name p.name) :
    (∃ n, resolve db "/" = some n ∧ (_name_to_slug p.name ++ "/") ∈ n.children)
    ∧ resolve db ⟨'/' :: (_name_to_slug p.name).data⟩ = none := by
  constructor
  · have hparts : computeParts ("/" : String).data = [] := by decide
    refine ⟨⟨NodeType.root, "/", "/", true,
      sortStrs ((list_persons db).map (fun q => _name_to_slug q.name ++ "/")), ""⟩, ?_, ?_⟩
    · unfold resolve
      rw [hparts]
    · show (_name_to_slug p.name ++ "/") ∈
        sortStrs ((list_persons db).map (fun q => _name_to_slug q.name ++ "/"))
      rw [mem_sortStrs]
      refine List.mem_map.mpr ⟨{ p with interaction_ids := interactionIdsFor db p.name }, ?_, rfl⟩
      exact List.mem_map.mpr ⟨p, hmem, rfl⟩
  · have hne : (_name_to_slug p.name).data ≠ [] := by
      intro h
      rw [_name_to_slug] at h
      simp at h
      rw [h] at hunder
      simp at hunder
    have hparts : computeParts (⟨'/' :: (_name_to_slug p.name).data⟩ : String).data =
        [(_name_to_slug p.name).data] :=
      computeParts_single_seg _ hne (name_to_slug_no_slash hnoslash)
    have hgp : get_person db (_slug_to_name ⟨(_name_to_slug p.name).data⟩) = none := by
      have hname : (⟨(_name_to_slug p.name).data⟩ : String) = _name_to_slug p.name := rfl
      rw [hname, slug_name_roundtrip]
      unfold get_person
      rw [List.find?_eq_none.mpr ?_]
      · rfl
      · intro q hq hbeq
        exact hnone q hq (by simpa using hbeq)
    unfold resolve
    rw [hparts]
    simp only [hgp]

theorem c9_slug_not_invertible_witness :
    (∃ n, resolve exDBU "/" = some n ∧ ("Jane_Doe/" : String) ∈ n.children)
    ∧ resolve exDBU "/Jane_Doe" = none :=
  c9_slug_not_invertible exDBU exUnder (by decide) (by decide) (by decide) (by decide)

/-! ### `resolve` absent-branch lemmas -/

theorem resolve_none_no_person (db : DB) (path : String) (slug : List Char)
    (rest : List (List Char)) (hparts : computeParts path.data = slug :: rest)
    (hgp : get_person db (_slug_to_name ⟨slug⟩) = none) :
    resolve db path = none := by
  unfold resolve
  rw [hparts]
  simp only [hgp]

theorem resolve_none_bad_person_file (db : DB) (path : String) (slug f : List Char)
    (hparts : computeParts path.data = [slug, f])
    (hcf : PERSON_FILES.contains (⟨f⟩ : String) = false)
    (hfi : (⟨f⟩ : String) ≠ "interactions") :
    resolve db path = none := by
  unfold resolve
  rw [hparts]
  cases hgp : get_person db (_slug_to_name ⟨slug⟩) with
  | none => simp only [hgp]
  | some person =>
    simp [hgp, hfi]
    simpa using hcf

theorem resolve_none_bad_date_slug (db : DB) (path : String) (slug ds : List Char)
    (rest : List (List Char))
    (hparts : computeParts path.data = slug :: ("interactions".data) :: ds :: rest)
    (hlk : lookupSlug (_build_date_slugs (get_interactions db (_slug_to_name ⟨slug⟩)))
      ⟨ds⟩ = none) :
    resolve db path = none := by
  unfold resolve
  rw [hparts]
  cases hgp : get_person db (_slug_to_name ⟨slug⟩) with
  | none => simp only [hgp]
  | some person => simp [hgp, hlk]

theorem resolve_none_bad_interaction_file (db : DB) (path : String) (slug ds g : List Char)
    (hparts : computeParts path.data = [slug, "interactions".data, ds, g])
    (hcg : INTERACTION_FILES.contains (⟨g⟩ : String) = false) :
    resolve db path = none := by
  unfold resolve
  rw [hparts]
  cases hgp : get_person db (_slug_to_name ⟨slug⟩) with
  | none => simp only [hgp]
  | some person =>
    cases hlk : lookupSlug (_build_date_slugs (get_interactions db (_slug_to_name ⟨slug⟩)))
        ⟨ds⟩ with
    | none => simp [hgp, hlk]
    | some interaction =>
      simp [hgp, hlk]
      simpa using hcg

theorem resolve_none_too_deep (db : DB) (path : String) (a b c d e : List Char)
    (rest : List (List Char))
    (hparts : computeParts path.data = a :: b :: c :: d :: e :: rest) :
    resolve db path = none := by
  unfold resolve
  rw [hparts]
  cases hgp : get_person db (_slug_to_name ⟨a⟩) with
  | none => simp only [hgp]
  | some person =>
    by_cases hb : (⟨b⟩ : String) = "interactions"
    · cases hlk : lookupSlug (_build_date_slugs (get_interactions db (_slug_to_name ⟨a⟩)))
          ⟨c⟩ with
      | none => simp [hgp, hb, hlk]
      | some interaction => simp [hgp, hb, hlk]
    · simp [hgp, hb]

/-- A file node can only come from a `/<slug>/<person-file>` path or a
`/<slug>/interactions/<date-slug>/<interaction-file>` path. -/
theorem resolve_file_shape (db : DB) (path : String) (n : VFSNode)
    (h : resolve db path = some n) (hd : n.is_dir = false) :
    (∃ slug f, computeParts path.data = [slug, f]
      ∧ PERSON_FILES.contains (⟨f⟩ : String) = true)
    ∨ (∃ slug ds g, computeParts path.data = [slug, "interactions".data, ds, g]) := by
  unfold resolve at h
  rcases hp : computeParts path.data with _ | ⟨slug, _ | ⟨f, _ | ⟨ds, _ | ⟨g, _ | ⟨e, rest⟩⟩⟩⟩⟩ <;>
      rw [hp] at h
  · simp only [Option.some.injEq] at h
    rw [← h] at hd
    simp at hd
  · cases hgp : get_person db (_slug_to_name ⟨slug⟩) with
    | none => simp only [hgp] at h; exact Option.noConfusion h
    | some person =>
      simp only [hgp, Option.some.injEq] at h
      rw [← h] at hd
      simp at hd
  · cases hgp : get_person db (_slug_to_name ⟨slug⟩) with
    | none => simp only [hgp] at h; exact Option.noConfusion h
    | some person =>
      simp only [hgp] at h
      by_cases h1 : (([] : List (List Char)).isEmpty
          && PERSON_FILES.contains (⟨f⟩ : String)) = true
      · exact Or.inl ⟨slug, f, rfl, by simpa using h1⟩
      · rw [if_neg h1] at h
        by_cases h2 : ((⟨f⟩ : String) == "interactions") = true
        · rw [if_pos h2] at h
          simp only [Option.some.injEq] at h
          rw [← h] at hd
          simp at hd
        · rw [if_neg h2] at h
          exact Option.noConfusion h
  · cases hgp : get_person db (_slug_to_name ⟨slug⟩) with
    | none => simp only [hgp] at h; exact Option.noConfusion h
    | some person =>
      simp only [hgp] at h
      by_cases h1 : (([ds] : List (List Char)).isEmpty
          && PERSON_FILES.contains (⟨f⟩ : String)) = true
      · simp at h1
      · rw [if_neg h1] at h
        by_cases h2 : ((⟨f⟩ : String) == "interactions") = true
        · rw [if_pos h2] at h
          cases hlk : lookupSlug (_build_date_slugs
              (get_interactions db (_slug_to_name ⟨slug⟩))) ⟨ds⟩ with
          | none => simp only [hlk] at h; exact Option.noConfusion h
          | some interaction =>
            simp only [hlk, Option.some.injEq] at h
            rw [← h] at hd
            simp at hd
        · rw [if_neg h2] at h
          exact Option.noConfusion h
  · cases hgp : get_person db (_slug_to_name ⟨slug⟩) with
    | none => simp only [hgp] at h; exact Option.noConfusion h
    | some person =>
      simp only [hgp] at h
      by_cases h1 : (([ds, g] : List (List Char)).isEmpty
          && PERSON_FILES.contains (⟨f⟩ : String)) = true
      · simp at h1
      · rw [if_neg h1] at h
        by_cases h2 : ((⟨f⟩ : String) == "interactions") = true
        · have hf : f = ("interactions" : String).data :=
            congrArg String.data (beq_iff_eq.mp h2)
          exact Or.inr ⟨slug, ds, g, by rw [hf]⟩
        · rw [if_neg h2] at h
          exact Option.noConfusion h
  · cases hgp : get_person db (_slug_to_name ⟨slug⟩) with
    | none => simp only [hgp] at h; exact Option.noConfusion h
    | some person =>
      simp only [hgp] at h
      by_cases h1 : ((ds :: g :: e :: rest : List (List Char)).isEmpty
          && PERSON_FILES.contains (⟨f⟩ : String)) = true
      · simp at h1
      · rw [if_neg h1] at h
        by_cases h2 : ((⟨f⟩ : String) == "interactions") = true
        · rw [if_pos h2] at h
          cases hlk : lookupSlug (_build_date_slugs
              (get_interactions db (_slug_to_name ⟨slug⟩))) ⟨ds⟩ with
          | none => simp only [hlk] at h; exact Option.noConfusion h
          | some interaction => simp only [hlk] at h; exact Option.noConfusion h
        · rw [if_neg h2] at h
          exact Option.noConfusion h

theorem resolve_none_not_interactions (db : DB) (path : String) (slug f : List Char)
    (rest2 : List (List Char)) (hne : rest2 ≠ [])
    (hparts : computeParts path.data = slug :: f :: rest2)
    (hfi : (⟨f⟩ : String) ≠ "interactions") :
    resolve db path = none := by
  unfold resolve
  rw [hparts]
  cases hgp : get_person db (_slug_to_name ⟨slug⟩) with
  | none => simp only [hgp]
  | some person =>
    simp only [hgp]
    have hie : rest2.isEmpty = false := by
      cases rest2 with
      | nil => exact absurd rfl hne
      | cons a as => rfl
    rw [if_neg (by simp [hie]), if_neg (by simp [hfi])]

/-- C3: `resolve` is a total function into an optional node (it returns
a node or absent, never an error), and returns absent for: a path whose
first segment decodes to no live person; an unknown fixed filename
under a person; an unknown date slug under `interactions`; an unknown
fixed filename under an interaction; any path of five or more segments
(deeper than the grammar); and any path one segment deeper than an
existing leaf file. -/
theorem c3_resolve_contract (db : DB) :
    (∀ path : String, (∃ n, resolve db path = some n) ∨ resolve db path = none)
    ∧ (∀ (path : String) (slug : List Char) (rest : List (List Char)),
        computeParts path.data = slug :: rest →
        get_person db (_slug_to_name ⟨slug⟩) = none → resolve db path = none)
    ∧ (∀ (path : String) (slug f : List Char),
        computeParts path.data = [slug, f] →
        (⟨f⟩ : String) ∉ PERSON_FILES → (⟨f⟩ : String) ≠ "interactions" →
        resolve db path = none)
    ∧ (∀ (path : String) (slug ds : List Char) (rest : List (List Char)),
        computeParts path.data = slug :: ("interactions".data) :: ds :: rest →
        lookupSlug (_build_date_slugs (get_interactions db (_slug_to_name ⟨slug⟩)))
          ⟨ds⟩ = none →
        resolve db path = none)
    ∧ (∀ (path : String) (slug ds g : List Char),
        computeParts path.data = [slug, "interactions".data, ds, g] →
        (⟨g⟩ : String) ∉ INTERACTION_FILES → resolve db path = none)
    ∧ (∀ path : String, 5 ≤ (computeParts path.data).length → resolve db path = none)
    ∧ (∀ (path : String) (n : VFSNode) (seg : List Char),
        resolve db path = some n → n.is_dir = false → seg ≠ [] → '/' ∉ seg →
        resolve db ⟨path.data ++ '/' :: seg⟩ = none) := by
  refine ⟨?_, ?_, ?_, ?_, ?_, ?_, ?_⟩
  · intro path
    cases h : resolve db path with
    | none => exact Or.inr rfl
    | some n => exact Or.inl ⟨n, rfl⟩
  · exact fun path slug rest hparts hgp => resolve_none_no_person db path slug rest hparts hgp
  · intro path slug f hparts hni hfi
    refine resolve_none_bad_person_file db path slug f hparts ?_ hfi
    simpa using hni
  · exact fun path slug ds rest hparts hlk =>
      resolve_none_bad_date_slug db path slug ds rest hparts hlk
  · intro path slug ds g hparts hni
    refine resolve_none_bad_interaction_file db path slug ds g hparts ?_
    simpa using hni
  · intro path hlen
    rcases hp : computeParts path.data with _ | ⟨a, _ | ⟨b, _ | ⟨c, _ | ⟨d, _ | ⟨e, rest⟩⟩⟩⟩⟩ <;>
        rw [hp] at hlen <;> try simp at hlen
    exact resolve_none_too_deep db path a b c d e rest hp
  · intro path n seg h hd hne hnos
    have hext : computeParts ((⟨path.data ++ '/' :: seg⟩ : String)).data =
        computeParts path.data ++ [seg] :=
      computeParts_append_seg path.data seg hne hnos
    rcases resolve_file_shape db path n h hd with ⟨slug, f, hp, hcf⟩ | ⟨slug, ds, g, hp⟩
    · have hfi : (⟨f⟩ : String) ≠ "interactions" := by
        intro heq
        rw [heq] at hcf
        exact absurd hcf (by decide)
      refine resolve_none_not_interactions db _ slug f [seg] (by simp) ?_ hfi
      rw [hext, hp]
      rfl
    · refine resolve_none_too_deep db _ slug ("interactions".data) ds g seg [] ?_
      rw [hext, hp]
      rfl

theorem c3_resolve_contract_witness :
    resolve exDB1 "/Bob" = none
    ∧ resolve exDB1 "/Jane_Doe/nope" = none
    ∧ resolve exDB1 "/Jane_Doe/interactions/2024-01-01" = none
    ∧ resolve exDB1 "/Jane_Doe/interactions/2025-09-05/nope" = none
    ∧ resolve exDB1 "/a/b/c/d/e" = none
    ∧ resolve exDB1 "/Jane_Doe/info/x" = none := by
  have h := c3_resolve_contract exDB1
  refine ⟨?_, ?_, ?_, ?_, ?_, ?_⟩
  · exact h.2.1 "/Bob" ("Bob".data) [] (by decide) (by decide)
  · exact h.2.2.1 "/Jane_Doe/nope" ("Jane_Doe".data) ("nope".data)
      (by decide) (by decide) (by decide)
  · exact h.2.2.2.1 "/Jane_Doe/interactions/2024-01-01" ("Jane_Doe".data)
      ("2024-01-01".data) [] (by decide) (by decide)
  · exact h.2.2.2.2.1 "/Jane_Doe/interactions/2025-09-05/nope" ("Jane_Doe".data)
      ("2025-09-05".data) ("nope".data) (by decide) (by decide)
  · exact h.2.2.2.2.2.1 "/a/b/c/d/e" (by decide)
  · exact h.2.2.2.2.2.2 "/Jane_Doe/info"
      ⟨NodeType.person_file, "/Jane_Doe/info", "info", false, [],
        "Name:         Jane Doe\nCompany:      Acme\nType:         customer\nInteractions: 1"⟩
      ("x".data) (by decide) rfl (by decide) (by decide)

/-! ### Tree-renderer lemmas -/

theorem computeParts_rstrip (l : List Char) :
    computeParts (rstripSlash l) = computeParts l := by
  rw [computeParts_eq_filterParts, computeParts_eq_filterParts]
  obtain ⟨k, hk⟩ := rstripSlash_decomp l
  conv_rhs => rw [hk]
  exact (filterParts_append_replicate _ k).symm

theorem computeParts_no_slash (l : List Char) : ∀ s ∈ computeParts l, '/' ∉ s := by
  rw [computeParts_eq_filterParts]
  intro s hs
  exact mem_splitSlash_no_slash _ s (List.mem_filter.mp hs).1

theorem flatMap_eq_map_of_singleton {α β : Type _} (l : List α) (f : α → List β) (g : α → β)
    (h : ∀ a ∈ l, f a = [g a]) : l.flatMap f = l.map g := by
  induction l with
  | nil => rfl
  | cons x xs ih =>
    rw [List.flatMap_cons, h x (by simp), ih (fun a ha => h a (List.mem_cons_of_mem x ha)),
      List.map_cons]
    rfl

/-- With one unit of fuel left (current depth equal to `max_depth`), the
renderer prints a directory's child lines but recursion below them is
cut off by the depth guard. -/
theorem treeRec_fuel_one (db : DB) (cpath : String) (node : VFSNode) (pre : String)
    (hdir : node.is_dir = true) :
    treeRec db 1 1 cpath node pre =
      node.children.enum.map (fun ic =>
        pre ++ (if ic.1 == node.children.length - 1 then "└── " else "├── ") ++ ic.2) := by
  obtain ⟨nt, np, nn, nd, nc, ncont⟩ := node
  simp only at hdir
  subst hdir
  have h1 : treeRec db 1 1 cpath ⟨nt, np, nn, true, nc, ncont⟩ pre =
      nc.enum.flatMap (fun ic =>
        (pre ++ (if ic.1 == nc.length - 1 then "└── " else "├── ") ++ ic.2) ::
        (if endsWithSlash ic.2 then
          match resolve db (rstrip cpath ++ "/" ++ rstrip ic.2) with
          | some child_node => treeRec db 1 0 (rstrip cpath ++ "/" ++ rstrip ic.2) child_node
              (pre ++ (if ic.1 == nc.length - 1 then "    " else "│   "))
          | none => []
        else [])) := rfl
  rw [h1]
  apply flatMap_eq_map_of_singleton
  intro ic _
  by_cases he : endsWithSlash ic.2 = true
  · rw [if_pos he]
    cases hres : resolve db (rstrip cpath ++ "/" ++ rstrip ic.2) with
    | none => rfl
    | some cn => rfl
  · rw [if_neg he]

/-- C8 (amended): rendering a person's directory with `max_depth = 1`
produces the name line, the five fixed children with `├── ` connectors
on all but `└── interactions/`, and additionally — because the depth
guard only cuts recursion strictly below depth `max_depth` — one line
per date slug under `interactions/`, indented by four spaces; when the
person has no interactions this is exactly the name line plus the five
children. -/
theorem c8_tree_person_depth1 (db : DB) (path : String) (slug : List Char) (person : Person)
    (hparts : computeParts path.data = [slug])
    (hgp : get_person db (_slug_to_name ⟨slug⟩) = some person) :
    tree db path 1 = String.intercalate "\n"
      ((⟨slug⟩ : String) :: "├── info" :: "├── background" :: "├── state" :: "├── delta" ::
        "└── interactions/" ::
        (sortStrs ((_build_date_slugs (get_interactions db (_slug_to_name ⟨slug⟩))).map
            (fun e => e.1 ++ "/"))).enum.map (fun ic =>
          "    " ++ (if ic.1 == (sortStrs ((_build_date_slugs
              (get_interactions db (_slug_to_name ⟨slug⟩))).map
                (fun e => e.1 ++ "/"))).length - 1 then "└── " else "├── ") ++ ic.2))
    ∧ (get_interactions db (_slug_to_name ⟨slug⟩) = [] →
        tree db path 1 = String.intercalate "\n"
          [(⟨slug⟩ : String), "├── info", "├── background", "├── state", "├── delta",
            "└── interactions/"]) := by
  have hslug_noslash : '/' ∉ slug := by
    have := computeParts_no_slash path.data slug
    rw [hparts] at this
    exact this (by simp)
  have hname : ((⟨slug⟩ : String) == "/") = false := by
    apply beq_eq_false_iff_ne.mpr
    intro heq
    have : slug = ['/'] := congrArg String.data heq
    rw [this] at hslug_noslash
    simp at hslug_noslash
  have hres : resolve db path = some ⟨NodeType.person_dir, "/" ++ (⟨slug⟩ : String),
      (⟨slug⟩ : String), true, PERSON_FILES ++ ["interactions/"], ""⟩ := by
    unfold resolve
    rw [hparts]
    simp only [hgp]
  have hcpath : ((rstrip path ++ "/" ++ rstrip "interactions/") : String).data =
      rstripSlash path.data ++ '/' :: ("interactions".data) := by
    rw [String.data_append, String.data_append, List.append_assoc]
    rfl
  have hparts2 : computeParts ((rstrip path ++ "/" ++ rstrip "interactions/") : String).data =
      [slug, "interactions".data] := by
    rw [hcpath, computeParts_append_seg _ _ (by decide) (by decide), computeParts_rstrip,
      hparts]
    rfl
  have hres2 : resolve db (rstrip path ++ "/" ++ rstrip "interactions/") =
      some ⟨NodeType.interactions_dir, "/" ++ (⟨slug⟩ : String) ++ "/interactions",
        "interactions", true,
        sortStrs ((_build_date_slugs (get_interactions db (_slug_to_name ⟨slug⟩))).map
          (fun e => e.1 ++ "/")), ""⟩ := by
    unfold resolve
    rw [hparts2]
    simp only [hgp]
    rw [if_neg (by decide), if_pos (by decide)]
  have hmain : tree db path 1 = String.intercalate "\n"
      ((⟨slug⟩ : String) :: "├── info" :: "├── background" :: "├── state" :: "├── delta" ::
        "└── interactions/" ::
        (sortStrs ((_build_date_slugs (get_interactions db (_slug_to_name ⟨slug⟩))).map
            (fun e => e.1 ++ "/"))).enum.map (fun ic =>
          "    " ++ (if ic.1 == (sortStrs ((_build_date_slugs
              (get_interactions db (_slug_to_name ⟨slug⟩))).map
                (fun e => e.1 ++ "/"))).length - 1 then "└── " else "├── ") ++ ic.2)) := by
    unfold tree
    rw [hres]
    have htree2 : treeRec db 1 (1 + 1) path ⟨NodeType.person_dir, "/" ++ (⟨slug⟩ : String),
        (⟨slug⟩ : String), true, PERSON_FILES ++ ["interactions/"], ""⟩ "" =
        (if (⟨slug⟩ : String) == "/" then "." else (⟨slug⟩ : String)) ::
        "├── info" :: "├── background" :: "├── state" :: "├── delta" ::
        "└── interactions/" ::
        ((match resolve db (rstrip path ++ "/" ++ rstrip "interactions/") with
          | some cn => treeRec db 1 1 (rstrip path ++ "/" ++ rstrip "interactions/") cn "    "
          | none => []) ++ []) := rfl
    have htree3 : treeRec db 1 (1 + 1) path ⟨NodeType.person_dir, "/" ++ (⟨slug⟩ : String),
        (⟨slug⟩ : String), true, PERSON_FILES ++ ["interactions/"], ""⟩ "" =
        (if (⟨slug⟩ : String) == "/" then "." else (⟨slug⟩ : String)) ::
        "├── info" :: "├── background" :: "├── state" :: "├── delta" ::
        "└── interactions/" ::
        ((treeRec db 1 1 (rstrip path ++ "/" ++ rstrip "interactions/")
            ⟨NodeType.interactions_dir, "/" ++ (⟨slug⟩ : String) ++ "/interactions",
              "interactions", true,
              sortStrs ((_build_date_slugs (get_interactions db (_slug_to_name ⟨slug⟩))).map
                (fun e => e.1 ++ "/")), ""⟩ "    ") ++ []) := by
      rw [htree2, hres2]
    show String.intercalate "\n" (treeRec db 1 (1 + 1) path
      ⟨NodeType.person_dir, "/" ++ (⟨slug⟩ : String), (⟨slug⟩ : String), true,
        PERSON_FILES ++ ["interactions/"], ""⟩ "") = _
    rw [htree3, if_neg (show ¬(((⟨slug⟩ : String) == "/") = true) by simp [hname]),
      treeRec_fuel_one db _ _ "    " rfl, List.append_nil]
  refine ⟨hmain, fun hempty => ?_⟩
  rw [hmain, hempty]
  rfl

/-- C8 (counterexample): for a person with one interaction dated
2025-09-05, `tree("/Jane_Doe", max_depth=1)` renders a seventh line
`    └── 2025-09-05/` below `interactions/`, so the output is not
exactly the name line plus the five top-level children. -/
theorem c8_tree_depth1_counterexample :
    tree exDB1 "/Jane_Doe" 1 =
      "Jane_Doe\n├── info\n├── background\n├── state\n├── delta\n└── interactions/\n    └── 2025-09-05/"
    ∧ tree exDB1 "/Jane_Doe" 1 ≠
      "Jane_Doe\n├── info\n├── background\n├── state\n├── delta\n└── interactions/" := by
  constructor
  · decide
  · decide

theorem c8_tree_person_depth1_witness :
    tree exDB1 "/Jane_Doe" 1 = String.intercalate "\n"
      ["Jane_Doe", "├── info", "├── background", "├── state", "├── delta",
        "└── interactions/", "    └── 2025-09-05/"] := by
  have h := (c8_tree_person_depth1 exDB1 "/Jane_Doe" ("Jane_Doe".data)
    { exJane with interaction_ids := [10] } (by decide) (by decide)).1
  rw [h]
  decide

/-! ### Pipeline background-gate lemmas -/

theorem pipeline_background_mem (ai : AI) (db : DB) (t : Transcript) (ss pn : String)
    (person : Person) (date : Datetime) (e : Event)
    (he : e = Event.backgroundCall ∨ e = Event.backgroundWrite) :
    (e ∈ (_run_shared_pipeline ai db t ss pn person date).2.2) ↔
      (pyStrip person.background = "" ∧ person.interaction_ids = []) := by
  simp only [_run_shared_pipeline]
  by_cases hf : (ai.extract_followups (relabel_speakers t ss pn) pn pn).isEmpty = true <;>
    by_cases hc : (pyStrip person.background == "" && person.interaction_ids.isEmpty) = true <;>
      [rw [if_pos hf, if_pos hc]; rw [if_pos hf, if_neg hc];
        rw [if_neg hf, if_pos hc]; rw [if_neg hf, if_neg hc]] <;>
    simp only [Bool.and_eq_true, beq_iff_eq, List.isEmpty_iff] at hc <;>
    rcases he with he | he <;> subst he <;> simp [hc]

theorem find?_name_map (l : List Person) (n : String) (f : Person → Person)
    (hf : ∀ p, (f p).name = p.name) :
    (l.map f).find? (fun p => p.name == n) = (l.find? (fun p => p.name == n)).map f := by
  induction l with
  | nil => rfl
  | cons p ps ih =>
    rw [List.map_cons, List.find?_cons, List.find?_cons, hf p]
    by_cases hp : (p.name == n) = true
    · simp [hp]
    · simp only [Bool.not_eq_true] at hp
      simp [hp, ih]

/-- The pipeline's final database carries the person rows of the input
database, transformed by a name-preserving update. -/
theorem pipeline_persons (ai : AI) (db : DB) (t : Transcript) (ss pn : String)
    (person : Person) (date : Datetime) :
    ∃ g : Person → Person, (∀ p, (g p).name = p.name) ∧
      (_run_shared_pipeline ai db t ss pn person date).2.1.persons = db.persons.map g := by
  simp only [_run_shared_pipeline]
  by_cases hf : (ai.extract_followups (relabel_speakers t ss pn) pn pn).isEmpty = true
  · by_cases hc : (pyStrip person.background == "" && person.interaction_ids.isEmpty) = true
    · rw [if_pos hf, if_pos hc]
      simp only [update_person_background, update_person_state, create_interaction]
      rw [List.map_map]
      refine ⟨_, ?_, rfl⟩
      intro p
      simp only [Function.comp]
      by_cases hp : (p.name == pn) = true <;> simp [hp]
    · rw [if_pos hf, if_neg hc]
      simp only [update_person_state, create_interaction]
      refine ⟨_, ?_, rfl⟩
      intro p
      by_cases hp : (p.name == pn) = true <;> simp [hp]
  · by_cases hc : (pyStrip person.background == "" && person.interaction_ids.isEmpty) = true
    · rw [if_neg hf, if_pos hc]
      simp only [update_person_background, update_person_state, create_followups,
        create_interaction]
      rw [if_neg hf]
      rw [List.map_map]
      refine ⟨_, ?_, rfl⟩
      intro p
      simp only [Function.comp]
      by_cases hp : (p.name == pn) = true <;> simp [hp]
    · rw [if_neg hf, if_neg hc]
      simp only [update_person_state, create_followups, create_interaction]
      rw [if_neg hf]
      refine ⟨_, ?_, rfl⟩
      intro p
      by_cases hp : (p.name == pn) = true <;> simp [hp]

/-- The pipeline's final database appends exactly the created
interaction to the interaction table. -/
theorem pipeline_interactions (ai : AI) (db : DB) (t : Transcript) (ss pn : String)
    (person : Person) (date : Datetime) :
    (_run_shared_pipeline ai db t ss pn person date).2.1.interactions =
      db.interactions ++ [(_run_shared_pipeline ai db t ss pn person date).1] := by
  simp only [_run_shared_pipeline]
  by_cases hf : (ai.extract_followups (relabel_speakers t ss pn) pn pn).isEmpty = true
  · by_cases hc : (pyStrip person.background == "" && person.interaction_ids.isEmpty) = true
    · rw [if_pos hf, if_pos hc]
      simp [update_person_background, update_person_state, create_interaction]
    · rw [if_pos hf, if_neg hc]
      simp [update_person_state, create_interaction]
  · by_cases hc : (pyStrip person.background == "" && person.interaction_ids.isEmpty) = true
    · rw [if_neg hf, if_pos hc]
      simp only [update_person_background, update_person_state, create_followups,
        create_interaction]
      rw [if_neg hf]
    · rw [if_neg hf, if_neg hc]
      simp only [update_person_state, create_followups, create_interaction]
      rw [if_neg hf]

theorem pipeline_interaction_person_name (ai : AI) (db : DB) (t : Transcript)
    (ss pn : String) (person : Person) (date : Datetime) :
    (_run_shared_pipeline ai db t ss pn person date).1.person_name = pn := rfl

/-- C7: the shared pipeline calls `generate_background` and writes a
background if and only if the person snapshot read before the
interaction write had a blank (whitespace-only) background and an empty
interaction list; consequently, a second ingestion for the same person
— against the database produced by a first successful ingestion — never
calls `generate_background`, whatever value the collaborator would
return. -/
theorem c7_background_once :
    (∀ (ai : AI) (db : DB) (t : Transcript) (ss pn : String) (person : Person)
        (date : Datetime),
      ((Event.backgroundCall ∈ (_run_shared_pipeline ai db t ss pn person date).2.2) ↔
        (pyStrip person.background = "" ∧ person.interaction_ids = []))
      ∧ ((Event.backgroundWrite ∈ (_run_shared_pipeline ai db t ss pn person date).2.2) ↔
        (pyStrip person.background = "" ∧ person.interaction_ids = [])))
    ∧ (∀ (ai ai2 : AI) (db : DB) (raw raw2 pn : String) (d d2 : Datetime)
        (ctx ctx2 : String) (person : Person),
      get_person db pn = some person → pyStrip raw ≠ "" →
      Event.backgroundCall ∉
        (ingest_transcript ai2 (ingest_transcript ai db raw pn d ctx).2.1 raw2 pn d2 ctx2).2.2) := by
  constructor
  · intro ai db t ss pn person date
    exact ⟨pipeline_background_mem ai db t ss pn person date _ (Or.inl rfl),
      pipeline_background_mem ai db t ss pn person date _ (Or.inr rfl)⟩
  · intro ai ai2 db raw raw2 pn d d2 ctx ctx2 person h1 h2
    have hrun : (ingest_transcript ai db raw pn d ctx).2.1 =
        (_run_shared_pipeline ai db (ai.diarize_transcript raw pn ctx).1
          (ai.diarize_transcript raw pn ctx).2 pn person d).2.1 := by
      unfold ingest_transcript
      simp only [h1]
      rw [if_neg (by simp [h2])]
    rw [hrun]
    set db4 := (_run_shared_pipeline ai db (ai.diarize_transcript raw pn ctx).1
      (ai.diarize_transcript raw pn ctx).2 pn person d).2.1 with hdb4
    -- The person row survives the pipeline's updates with its name intact.
    obtain ⟨p0, hp0⟩ : ∃ p0, db.persons.find? (fun p => p.name == pn) = some p0 := by
      unfold get_person at h1
      cases hfind : db.persons.find? (fun p => p.name == pn) with
      | none => rw [hfind] at h1; exact absurd h1 (by simp)
      | some p0 => exact ⟨p0, rfl⟩
    obtain ⟨g, hg, hpersons⟩ := pipeline_persons ai db (ai.diarize_transcript raw pn ctx).1
      (ai.diarize_transcript raw pn ctx).2 pn person d
    have hfind4 : db4.persons.find? (fun p => p.name == pn) = some (g p0) := by
      rw [hdb4, hpersons, find?_name_map _ _ _ hg, hp0]
      rfl
    have hgp4 : get_person db4 pn =
        some { g p0 with interaction_ids := interactionIdsFor db4 pn } := by
      unfold get_person
      rw [hfind4]
      rfl
    -- The created interaction makes the person's id list nonempty.
    have hids : interactionIdsFor db4 pn ≠ [] := by
      have hmem : (_run_shared_pipeline ai db (ai.diarize_transcript raw pn ctx).1
          (ai.diarize_transcript raw pn ctx).2 pn person d).1 ∈
          db4.interactions.filter (fun i => i.person_name == pn) := by
        rw [List.mem_filter]
        constructor
        · rw [hdb4, pipeline_interactions]
          simp
        · rw [pipeline_interaction_person_name]
          simp
      intro hnil
      unfold interactionIdsFor at hnil
      rw [List.map_eq_nil_iff] at hnil
      have := (pySort_perm (fun a b => lexLe (isoformat a.date).data (isoformat b.date).data)
        (db4.interactions.filter (fun i => i.person_name == pn))).mem_iff.mpr hmem
      rw [hnil] at this
      simp at this
    -- Second run: either it fails before any AI call, or the gate is false.
    unfold ingest_transcript
    simp only [hgp4]
    by_cases hstrip : (pyStrip raw2 == "") = true
    · rw [if_pos hstrip]
      simp
    · rw [if_neg hstrip]
      intro hmem
      have hmem2 : Event.backgroundCall ∈
          (_run_shared_pipeline ai2 db4 (ai2.diarize_transcript raw2 pn ctx2).1
            (ai2.diarize_transcript raw2 pn ctx2).2 pn
            { g p0 with interaction_ids := interactionIdsFor db4 pn } d2).2.2 := by
        rcases List.mem_cons.mp hmem with h | h
        · exact absurd h (by decide)
        · exact h
      have := (pipeline_background_mem ai2 db4 (ai2.diarize_transcript raw2 pn ctx2).1
        (ai2.diarize_transcript raw2 pn ctx2).2 pn
        { g p0 with interaction_ids := interactionIdsFor db4 pn } d2 _ (Or.inl rfl)).mp hmem2
      exact hids this.2

theorem c7_background_once_witness :
    (Event.backgroundCall ∈ (_run_shared_pipeline exAI exDB0 exTranscript "A" "Jane Doe"
      { exJane with interaction_ids := [] } exDate905).2.2)
    ∧ Event.backgroundCall ∉
      (ingest_transcript exAI (ingest_transcript exAI exDB0 "hello" "Jane Doe" exDate905 "").2.1
        "again" "Jane Doe" exDate906 "").2.2 :=
  ⟨(c7_background_once.1 exAI exDB0 exTranscript "A" "Jane Doe"
      { exJane with interaction_ids := [] } exDate905).1.mpr ⟨by decide, rfl⟩,
    c7_background_once.2 exAI exAI exDB0 "hello" "again" "Jane Doe" exDate905 exDate906 "" ""
      { exJane with interaction_ids := [] } (by decide) (by decide)⟩

/-! ### Date-string lemmas -/

theorem natToDecCore_length_le :
    ∀ (fuel n k : Nat), n < fuel → n < 10 ^ k → 1 ≤ k →
      (natToDecCore fuel n).length ≤ k := by
  intro fuel
  induction fuel with
  | zero => intro n k h; omega
  | succ fuel ih =>
    intro n k hfuel hpow hk
    unfold natToDecCore
    by_cases h10 : n < 10
    · rw [if_pos h10]
      simpa using hk
    · rw [if_neg h10]
      rw [List.length_append]
      have hk2 : 2 ≤ k := by
        by_contra hcon
        have hk1 : k = 1 := by omega
        rw [hk1] at hpow
        simp at hpow
        omega
      have hdiv : n / 10 < 10 ^ (k - 1) := by
        rw [Nat.div_lt_iff_lt_mul (by omega)]
        have : 10 ^ (k - 1) * 10 = 10 ^ k := by
          rw [← Nat.pow_succ]
          congr 1
          omega
        omega
      have hdivlt : n / 10 < n := Nat.div_lt_self (by omega) (by omega)
      have := ih (n / 10) (k - 1) (by omega) hdiv (by omega)
      simp only [List.length_cons, List.length_nil]
      omega

theorem natToDec_length_le (n k : Nat) (hpow : n < 10 ^ k) (hk : 1 ≤ k) :
    (natToDec n).length ≤ k :=
  natToDecCore_length_le (n + 1) n k (by omega) hpow hk

theorem pad4_data_length (n : Nat) (h : n ≤ 9999) : (pad4 n).data.length = 4 := by
  have hle : (natToDec n).length ≤ 4 := natToDec_length_le n 4 (by omega) (by omega)
  show (List.replicate (4 - (natToDec n).length) '0' ++ natToDec n).length = 4
  rw [List.length_append, List.length_replicate]
  omega

theorem pad2_data_length (n : Nat) (h : n ≤ 99) : (pad2 n).data.length = 2 := by
  have hle : (natToDec n).length ≤ 2 := natToDec_length_le n 2 (by omega) (by omega)
  show (List.replicate (2 - (natToDec n).length) '0' ++ natToDec n).length = 2
  rw [List.length_append, List.length_replicate]
  omega

theorem dateStrYmd_data_length (d : Datetime) (hwf : DatetimeWF d) :
    (dateStrYmd d).data.length = 10 := by
  obtain ⟨h1, h2, h3, h4, h5, h6, _⟩ := hwf
  show ((pad4 d.year ++ "-" ++ pad2 d.month ++ "-" ++ pad2 d.day) : String).data.length = 10
  rw [String.data_append, String.data_append, String.data_append, String.data_append]
  rw [List.length_append, List.length_append, List.length_append, List.length_append]
  rw [pad4_data_length d.year (by omega), pad2_data_length d.month (by omega),
    pad2_data_length d.day (by omega)]
  rfl

/-- The LIKE-prefix filter of `get_interactions_by_date` coincides with
calendar-date equality: a stored ISO timestamp starts with a
`strftime("%Y-%m-%d")` string exactly when its own date part equals it. -/
theorem startsWith_isoformat_iff (d d' : Datetime) (hd : DatetimeWF d) (hd' : DatetimeWF d') :
    pyStartsWith (isoformat d) (dateStrYmd d') = true ↔ dateStrYmd d = dateStrYmd d' := by
  unfold pyStartsWith
  rw [List.isPrefixOf_iff_prefix]
  constructor
  · intro hpre
    have hiso : (isoformat d).data = (dateStrYmd d).data ++
        ("T" ++ pad2 d.hour ++ ":" ++ pad2 d.minute ++ ":" ++ pad2 d.second : String).data := by
      show ((dateStrYmd d ++ "T" ++ pad2 d.hour ++ ":" ++ pad2 d.minute ++ ":"
        ++ pad2 d.second) : String).data = _
      simp [String.data_append]
    rw [hiso] at hpre
    have hpre2 : (dateStrYmd d).data <+: (dateStrYmd d).data ++
        ("T" ++ pad2 d.hour ++ ":" ++ pad2 d.minute ++ ":" ++ pad2 d.second : String).data :=
      List.prefix_append _ _
    have hlen : (dateStrYmd d').data.length ≤ (dateStrYmd d).data.length := by
      rw [dateStrYmd_data_length d hd, dateStrYmd_data_length d' hd']
    have := List.prefix_of_prefix_length_le hpre hpre2 hlen
    have heq := this.eq_of_length (by
      rw [dateStrYmd_data_length d hd, dateStrYmd_data_length d' hd'])
    exact (String.ext heq).symm
  · intro heq
    have hiso : (isoformat d).data = (dateStrYmd d).data ++
        ("T" ++ pad2 d.hour ++ ":" ++ pad2 d.minute ++ ":" ++ pad2 d.second : String).data := by
      show ((dateStrYmd d ++ "T" ++ pad2 d.hour ++ ":" ++ pad2 d.minute ++ ":"
        ++ pad2 d.second) : String).data = _
      simp [String.data_append]
    rw [hiso, ← heq]
    exact List.prefix_append _ _

theorem get_interactions_by_date_eq_filter (db : DB) (pn : String) (date : Datetime)
    (hwf : ∀ i ∈ db.interactions, DatetimeWF i.date) (hd : DatetimeWF date) :
    get_interactions_by_date db pn (dateStrYmd date) =
      pySort (fun a b => a.id ≤ b.id)
        (db.interactions.filter
          (fun i => i.person_name == pn && (dateStrYmd i.date == dateStrYmd date))) := by
  unfold get_interactions_by_date
  congr 1
  apply List.filter_congr
  intro i hi
  have hiwf := hwf i hi
  by_cases hymd : dateStrYmd i.date = dateStrYmd date
  · rw [(startsWith_isoformat_iff i.date date hiwf hd).mpr hymd, beq_iff_eq.mpr hymd]
  · rw [Bool.eq_false_iff.mpr (fun hpre =>
        hymd ((startsWith_isoformat_iff i.date date hiwf hd).mp hpre)),
      beq_eq_false_iff_ne.mpr hymd]

/-! ### Grouping lemmas -/

theorem insertByDate_find (k k' : String) (i : Interaction) :
    ∀ (G : List (String × List Interaction)),
      ((insertByDate G k' i).find? (fun e => e.1 == k)).map Prod.snd =
        if k' == k then
          some ((((G.find? (fun e => e.1 == k)).map Prod.snd).getD []) ++ [i])
        else (G.find? (fun e => e.1 == k)).map Prod.snd := by
  intro G
  induction G with
  | nil =>
    by_cases h : (k' == k) = true
    · simp [insertByDate, List.find?, h]
    · simp [insertByDate, List.find?, h]
  | cons e G ih =>
    by_cases hek' : (e.1 == k') = true
    · have hek'eq : e.1 = k' := beq_iff_eq.mp hek'
      by_cases hek : (e.1 == k) = true
      · have hekeq : e.1 = k := beq_iff_eq.mp hek
        have hkk : (k' == k) = true := beq_iff_eq.mpr (hek'eq ▸ hekeq)
        simp [insertByDate, hek', List.find?_cons, hek, hkk]
      · have hkk : (k' == k) = false := by
          apply beq_eq_false_iff_ne.mpr
          intro hcon
          exact hek (beq_iff_eq.mpr (hek'eq.trans hcon))
        simp [insertByDate, hek', List.find?_cons, hek, hkk]
    · by_cases hek : (e.1 == k) = true
      · have hekeq : e.1 = k := beq_iff_eq.mp hek
        have hkk : (k' == k) = false := by
          apply beq_eq_false_iff_ne.mpr
          intro hcon
          rw [hcon, ← hekeq] at hek'
          simp at hek'
        simp [insertByDate, hek', List.find?_cons, hek, hkk]
      · simp only [insertByDate, hek', Bool.false_eq_true, if_false, List.find?_cons, hek]
        rw [ih]

theorem groupByDate_find (k : String) :
    ∀ (l : List Interaction),
      (((groupByDate l).find? (fun e => e.1 == k)).map Prod.snd).getD [] =
        l.filter (fun i => dateStrYmd i.date == k) := by
  intro l
  induction l using List.reverseRecOn with
  | nil => rfl
  | append_singleton l i ih =>
    have hfold : groupByDate (l ++ [i]) =
        insertByDate (groupByDate l) (dateStrYmd i.date) i := by
      unfold groupByDate
      rw [List.foldl_append]
      rfl
    rw [hfold, insertByDate_find, List.filter_append]
    by_cases h : (dateStrYmd i.date == k) = true
    · rw [if_pos h]
      simp [ih, h]
    · rw [if_neg h]
      simp [ih, h]

theorem insertByDate_keys (k : String) (i : Interaction) :
    ∀ (G : List (String × List Interaction)),
      ∀ x ∈ insertByDate G k i, x.1 = k ∨ x.1 ∈ G.map Prod.fst := by
  intro G
  induction G with
  | nil => intro x hx; simp [insertByDate] at hx; simp [hx]
  | cons e G ih =>
    intro x hx
    by_cases he : (e.1 == k) = true
    · simp only [insertByDate, he, if_pos] at hx
      rcases List.mem_cons.mp hx with h | h
      · subst h; exact Or.inl (beq_iff_eq.mp he)
      · exact Or.inr (List.mem_map.mpr ⟨x, List.mem_cons_of_mem e h, rfl⟩)
    · simp only [insertByDate, he, Bool.false_eq_true, if_false] at hx
      rcases List.mem_cons.mp hx with h | h
      · exact Or.inr (List.mem_map.mpr ⟨e, List.mem_cons_self e G,
          (congrArg Prod.fst h).symm⟩)
      · rcases ih x h with h2 | h2
        · exact Or.inl h2
        · obtain ⟨y, hy, hyx⟩ := List.mem_map.mp h2
          exact Or.inr (List.mem_map.mpr ⟨y, List.mem_cons_of_mem e hy, hyx⟩)

theorem insertByDate_pairwise (k : String) (i : Interaction) :
    ∀ (G : List (String × List Interaction)),
      G.Pairwise (fun a b => a.1 ≠ b.1) →
      (insertByDate G k i).Pairwise (fun a b => a.1 ≠ b.1) := by
  intro G
  induction G with
  | nil => intro _; simp [insertByDate]
  | cons e G ih =>
    intro h
    by_cases he : (e.1 == k) = true
    · simp only [insertByDate, he, if_pos]
      exact List.Pairwise.cons (fun x hx => (List.pairwise_cons.mp h).1 x hx)
        (List.pairwise_cons.mp h).2
    · simp only [insertByDate, he, Bool.false_eq_true, if_false]
      refine List.Pairwise.cons ?_ (ih (List.pairwise_cons.mp h).2)
      intro x hx
      rcases insertByDate_keys k i G x hx with h2 | h2
      · rw [h2]
        exact fun hcon => (beq_eq_false_iff_ne.mp (Bool.not_eq_true _ ▸ by
          simpa using he)) hcon
      · obtain ⟨y, hy, hyx⟩ := List.mem_map.mp h2
        intro hcon
        exact ((List.pairwise_cons.mp h).1 y hy) (hyx ▸ hcon)

theorem groupByDate_pairwise (l : List Interaction) :
    (groupByDate l).Pairwise (fun a b => a.1 ≠ b.1) := by
  suffices h : ∀ (acc : List (String × List Interaction)),
      acc.Pairwise (fun a b => a.1 ≠ b.1) →
      (l.foldl (fun acc i => insertByDate acc (dateStrYmd i.date) i) acc).Pairwise
        (fun a b => a.1 ≠ b.1) by
    exact h [] (by simp)
  induction l with
  | nil => intro acc hacc; exact hacc
  | cons x xs ih =>
    intro acc hacc
    exact ih _ (insertByDate_pairwise _ _ acc hacc)

theorem find?_of_mem_nodup_keys (G : List (String × List Interaction)) (k : String)
    (g : List Interaction) (hnd : G.Pairwise (fun a b => a.1 ≠ b.1))
    (hmem : (k, g) ∈ G) :
    G.find? (fun e => e.1 == k) = some (k, g) := by
  induction G with
  | nil => simp at hmem
  | cons e G ih =>
    rcases List.mem_cons.mp hmem with h | h
    · subst h
      simp [List.find?_cons]
    · have hek : (e.1 == k) = false := by
        apply beq_eq_false_iff_ne.mpr
        intro hcon
        exact ((List.pairwise_cons.mp hnd).1 (k, g) h) (by simpa using hcon)
      rw [List.find?_cons, hek]
      exact ih (List.pairwise_cons.mp hnd).2 h

theorem groupByDate_mem (l : List Interaction) (k : String) (g : List Interaction)
    (hmem : (k, g) ∈ groupByDate l) :
    g = l.filter (fun i => dateStrYmd i.date == k) := by
  have hfind := find?_of_mem_nodup_keys (groupByDate l) k g (groupByDate_pairwise l) hmem
  have := groupByDate_find k l
  rw [hfind] at this
  simpa using this

theorem groupByDate_cover (l : List Interaction) (m : Interaction) (hm : m ∈ l) :
    (dateStrYmd m.date, l.filter (fun i => dateStrYmd i.date == dateStrYmd m.date)) ∈
      groupByDate l := by
  have hfilter : m ∈ l.filter (fun i => dateStrYmd i.date == dateStrYmd m.date) :=
    List.mem_filter.mpr ⟨hm, by simp⟩
  cases hfind : (groupByDate l).find? (fun e => e.1 == dateStrYmd m.date) with
  | none =>
    have hgf := groupByDate_find (dateStrYmd m.date) l
    rw [hfind] at hgf
    simp at hgf
    exact absurd rfl (hgf m hm)
  | some e =>
    have hemem : e ∈ groupByDate l := List.mem_of_find?_eq_some hfind
    have hek := List.find?_some hfind
    have hgf := groupByDate_find (dateStrYmd m.date) l
    rw [hfind] at hgf
    simp at hgf
    have hthis : e = (dateStrYmd m.date,
        l.filter (fun i => dateStrYmd i.date == dateStrYmd m.date)) := by
      obtain ⟨e1, e2⟩ := e
      simp only at hek hgf
      rw [beq_iff_eq.mp hek, hgf]
    rw [← hthis]
    exact hemem

/-! ### Enumeration and sortedness lemmas -/

theorem enumSlugs_append (k : String) (b : List Interaction) :
    ∀ (a : List Interaction) (st : Nat),
      enumSlugs k st (a ++ b) = enumSlugs k st a ++ enumSlugs k (st + a.length) b := by
  intro a
  induction a with
  | nil => intro st; simp [enumSlugs]
  | cons x xs ih =>
    intro st
    show (k ++ "_" ++ natToStr st, x) :: enumSlugs k (st + 1) (xs ++ b) =
      ((k ++ "_" ++ natToStr st, x) :: enumSlugs k (st + 1) xs) ++
        enumSlugs k (st + (xs.length + 1)) b
    rw [ih (st + 1), List.cons_append]
    have harith : st + 1 + xs.length = st + (xs.length + 1) := by omega
    rw [harith]

theorem mem_enumSlugs (k : String) :
    ∀ (xs : List Interaction) (st : Nat) (q : String × Interaction),
      q ∈ enumSlugs k st xs → q.2 ∈ xs := by
  intro xs
  induction xs with
  | nil => intro st q h; simp [enumSlugs] at h
  | cons x rest ih =>
    intro st q h
    rcases List.mem_cons.mp h with h2 | h2
    · rw [h2]
      simp
    · exact List.mem_cons_of_mem x (ih (st + 1) q h2)

theorem findIdx_last (iid : Nat) (m : Interaction) (hm : (m.id == iid) = true) :
    ∀ (ys : List Interaction), (∀ y ∈ ys, (y.id == iid) = false) →
      (ys ++ [m]).findIdx (fun ix => ix.id == iid) = ys.length := by
  intro ys
  induction ys with
  | nil =>
    intro _
    simp [List.findIdx_cons, hm]
  | cons y ys ih =>
    intro hys
    rw [List.cons_append, List.findIdx_cons, hys y (by simp)]
    simp only [cond_false, List.length_cons]
    rw [ih (fun y hy => hys y (List.mem_cons_of_mem _ hy))]

theorem insertSorted_pairwise (le : α → α → Bool)
    (htrans : ∀ a b c, le a b = true → le b c = true → le a c = true)
    (htot : ∀ a b, le a b = true ∨ le b a = true) (x : α) :
    ∀ (l : List α), l.Pairwise (fun a b => le a b = true) →
      (insertSorted le x l).Pairwise (fun a b => le a b = true) := by
  intro l
  induction l with
  | nil => intro _; simp [insertSorted]
  | cons y ys ih =>
    intro h
    unfold insertSorted
    by_cases hxy : le x y = true
    · rw [if_pos hxy]
      refine List.Pairwise.cons ?_ h
      intro z hz
      rcases List.mem_cons.mp hz with h2 | h2
      · rw [h2]; exact hxy
      · exact htrans x y z hxy ((List.pairwise_cons.mp h).1 z h2)
    · rw [if_neg hxy]
      refine List.Pairwise.cons ?_ (ih (List.pairwise_cons.mp h).2)
      intro z hz
      have hz2 := (insertSorted_perm le x ys).mem_iff.mp hz
      rcases List.mem_cons.mp hz2 with h2 | h2
      · rw [h2]
        rcases htot x y with h3 | h3
        · exact absurd h3 hxy
        · exact h3
      · exact (List.pairwise_cons.mp h).1 z h2

theorem pySort_pairwise (le : α → α → Bool)
    (htrans : ∀ a b c, le a b = true → le b c = true → le a c = true)
    (htot : ∀ a b, le a b = true ∨ le b a = true) :
    ∀ (l : List α), (pySort le l).Pairwise (fun a b => le a b = true) := by
  intro l
  induction l with
  | nil => simp [pySort]
  | cons x xs ih => exact insertSorted_pairwise le htrans htot x _ ih

theorem sorted_max_last (l : List Interaction) (m : Interaction)
    (hsort : l.Pairwise (fun a b => a.id ≤ b.id)) (hm : m ∈ l)
    (hmax : ∀ x ∈ l, x ≠ m → x.id < m.id)
    (hnodup : l.Pairwise (fun a b => a.id ≠ b.id)) :
    ∃ ys, l = ys ++ [m] ∧ ∀ y ∈ ys, y.id < m.id := by
  have hne : l ≠ [] := fun h => by rw [h] at hm; simp at hm
  have hdecomp := List.dropLast_append_getLast hne
  set y0 := l.getLast hne with hy0
  have hy0m : y0 = m := by
    by_contra hcon
    have hy0mem : y0 ∈ l := List.getLast_mem hne
    have hy0lt : y0.id < m.id := hmax y0 hy0mem hcon
    have hmm : m ∈ l.dropLast := by
      rcases List.mem_append.mp (hdecomp ▸ hm) with h | h
      · exact h
      · simp at h
        exact absurd h.symm hcon
    have hcross := (List.pairwise_append.mp (hdecomp ▸ hsort)).2.2
    have := hcross m hmm y0 (by simp)
    omega
  refine ⟨l.dropLast, by rw [← hy0m]; exact hdecomp.symm, ?_⟩
  intro y hy
  have hymem : y ∈ l := (List.dropLast_sublist l).subset hy
  by_cases hym : y = m
  · exfalso
    have hcross := (List.pairwise_append.mp (hdecomp ▸ hnodup)).2.2
    have := hcross y hy y0 (by simp)
    rw [hym, hy0m] at this
    exact this rfl
  · exact hmax y hymem hym

theorem sorted_unique (l1 l2 : List Interaction) (hperm : l1.Perm l2)
    (h1 : l1.Pairwise (fun a b => a.id ≤ b.id))
    (h2 : l2.Pairwise (fun a b => a.id ≤ b.id))
    (hnodup : l1.Pairwise (fun a b => a.id ≠ b.id)) : l1 = l2 := by
  have hnodup2 : l2.Pairwise (fun a b => a.id ≠ b.id) :=
    (hperm.pairwise_iff (fun h => h.symm)).mp hnodup
  have hlt1 : l1.Pairwise (fun a b => a.id < b.id) :=
    (h1.and hnodup).imp (fun h => Nat.lt_of_le_of_ne h.1 h.2)
  have hlt2 : l2.Pairwise (fun a b => a.id < b.id) :=
    (h2.and hnodup2).imp (fun h => Nat.lt_of_le_of_ne h.1 h.2)
  haveI : IsAntisymm Interaction (fun a b => a.id < b.id) :=
    ⟨fun a b hab hba => absurd hba (Nat.lt_asymm hab)⟩
  exact List.eq_of_perm_of_sorted hperm hlt1 hlt2

/-- The slug `_build_date_slugs` assigns to the interaction with the
strictly largest id: the bare date if it is alone on its calendar date,
otherwise the date suffixed with the size of its date group (it sorts
last in the group). -/
theorem build_date_slugs_max (l : List Interaction) (m : Interaction) (hm : m ∈ l)
    (hnodup : l.Pairwise (fun a b => a.id ≠ b.id))
    (hmax : ∀ x ∈ l, x ≠ m → x.id < m.id) :
    ((if (l.filter (fun i => dateStrYmd i.date == dateStrYmd m.date)).length ≤ 1
        then dateStrYmd m.date
        else dateStrYmd m.date ++ "_" ++
          natToStr (l.filter (fun i => dateStrYmd i.date == dateStrYmd m.date)).length,
      m) ∈ _build_date_slugs l)
    ∧ (∀ q ∈ _build_date_slugs l, q.2.id = m.id →
        q.1 = (if (l.filter (fun i => dateStrYmd i.date == dateStrYmd m.date)).length ≤ 1
          then dateStrYmd m.date
          else dateStrYmd m.date ++ "_" ++
            natToStr (l.filter (fun i => dateStrYmd i.date == dateStrYmd m.date)).length)) := by
  have htrans : ∀ a b c : Interaction, (a.id ≤ b.id : Bool) = true →
      (b.id ≤ c.id : Bool) = true → (a.id ≤ c.id : Bool) = true := fun a b c h1 h2 =>
    decide_eq_true (Nat.le_trans (of_decide_eq_true h1) (of_decide_eq_true h2))
  have htot : ∀ a b : Interaction, (a.id ≤ b.id : Bool) = true ∨
      (b.id ≤ a.id : Bool) = true := fun a b => by
    rcases Nat.le_total a.id b.id with h | h
    · exact Or.inl (decide_eq_true h)
    · exact Or.inr (decide_eq_true h)
  have hgmem := groupByDate_cover l m hm
  have hperm := pySort_perm (fun a b : Interaction => (a.id ≤ b.id : Bool))
    (l.filter (fun i => dateStrYmd i.date == dateStrYmd m.date))
  have hnodup_g : (l.filter (fun i => dateStrYmd i.date == dateStrYmd m.date)).Pairwise
      (fun a b => a.id ≠ b.id) := List.Pairwise.sublist (List.filter_sublist l) hnodup
  have hnodup_s := ((hperm.pairwise_iff (fun h => h.symm)).mpr hnodup_g :
    (pySort _ _).Pairwise (fun a b : Interaction => a.id ≠ b.id))
  have hsort_pw := pySort_pairwise (fun a b : Interaction => (a.id ≤ b.id : Bool))
    htrans htot (l.filter (fun i => dateStrYmd i.date == dateStrYmd m.date))
  have hsort_le : (pySort (fun a b : Interaction => (a.id ≤ b.id : Bool))
      (l.filter (fun i => dateStrYmd i.date == dateStrYmd m.date))).Pairwise
      (fun a b => a.id ≤ b.id) := hsort_pw.imp (fun h => of_decide_eq_true h)
  have hm_g : m ∈ l.filter (fun i => dateStrYmd i.date == dateStrYmd m.date) :=
    List.mem_filter.mpr ⟨hm, by simp⟩
  have hm_s : m ∈ pySort (fun a b : Interaction => (a.id ≤ b.id : Bool))
      (l.filter (fun i => dateStrYmd i.date == dateStrYmd m.date)) :=
    hperm.mem_iff.mpr hm_g
  have hmax_s : ∀ x ∈ pySort (fun a b : Interaction => (a.id ≤ b.id : Bool))
      (l.filter (fun i => dateStrYmd i.date == dateStrYmd m.date)), x ≠ m → x.id < m.id :=
    fun x hx hxm => hmax x ((List.filter_sublist l).subset (hperm.mem_iff.mp hx)) hxm
  obtain ⟨ys, hys, hylt⟩ := sorted_max_last _ m hsort_le hm_s hmax_s hnodup_s
  have hlen : (l.filter (fun i => dateStrYmd i.date == dateStrYmd m.date)).length =
      ys.length + 1 := by
    rw [← hperm.length_eq, hys]
    simp
  constructor
  · apply List.mem_flatMap.mpr
    refine ⟨(dateStrYmd m.date, l.filter (fun i => dateStrYmd i.date == dateStrYmd m.date)),
      hgmem, ?_⟩
    show _ ∈ (if (pySort (fun a b : Interaction => (a.id ≤ b.id : Bool))
        (l.filter (fun i => dateStrYmd i.date == dateStrYmd m.date))).length = 1
      then [(dateStrYmd m.date, (pySort (fun a b : Interaction => (a.id ≤ b.id : Bool))
        (l.filter (fun i => dateStrYmd i.date == dateStrYmd m.date))).headI)]
      else enumSlugs (dateStrYmd m.date) 1
        (pySort (fun a b : Interaction => (a.id ≤ b.id : Bool))
          (l.filter (fun i => dateStrYmd i.date == dateStrYmd m.date))))
    cases ys with
    | nil =>
      rw [if_pos (by rw [hys]; rfl)]
      rw [hys]
      rw [if_pos (by rw [hlen]; simp)]
      simp
    | cons y ys' =>
      rw [if_neg (by
        rw [hys]
        simp only [List.length_append, List.length_cons, List.length_nil]
        omega)]
      rw [hys, enumSlugs_append]
      apply List.mem_append_right
      show _ ∈ [(dateStrYmd m.date ++ "_" ++ natToStr (1 + (y :: ys').length), m)]
      rw [if_neg (by rw [hlen]; simp only [List.length_cons]; omega)]
      have harith : (l.filter (fun i => dateStrYmd i.date == dateStrYmd m.date)).length =
          1 + (y :: ys').length := by
        rw [hlen]
        simp only [List.length_cons]
        omega
      rw [harith]
      simp
  · intro q hq hqid
    obtain ⟨eg, hegmem, hqstep⟩ := List.mem_flatMap.mp hq
    obtain ⟨k2, g2⟩ := eg
    have hg2 : g2 = l.filter (fun i => dateStrYmd i.date == k2) :=
      groupByDate_mem l k2 g2 hegmem
    have hqstep2 : q ∈ (if (pySort (fun a b : Interaction => (a.id ≤ b.id : Bool))
        g2).length = 1
      then [(k2, (pySort (fun a b : Interaction => (a.id ≤ b.id : Bool)) g2).headI)]
      else enumSlugs k2 1 (pySort (fun a b : Interaction => (a.id ≤ b.id : Bool)) g2)) :=
      hqstep
    have hq2mem : q.2 ∈ pySort (fun a b : Interaction => (a.id ≤ b.id : Bool)) g2 := by
      by_cases h1 : (pySort (fun a b : Interaction => (a.id ≤ b.id : Bool)) g2).length = 1
      · rw [if_pos h1] at hqstep2
        obtain ⟨x, hx⟩ := List.length_eq_one.mp h1
        have hqx : q = (k2, (pySort (fun a b : Interaction =>
            (a.id ≤ b.id : Bool)) g2).headI) := by simpa using hqstep2
        rw [hqx, hx]
        simp
      · rw [if_neg h1] at hqstep2
        exact mem_enumSlugs k2 _ 1 q hqstep2
    have hq2g : q.2 ∈ g2 :=
      (pySort_perm (fun a b : Interaction => (a.id ≤ b.id : Bool)) g2).mem_iff.mp hq2mem
    have hq2l : q.2 ∈ l := by
      rw [hg2] at hq2g
      exact (List.filter_sublist l).subset hq2g
    have hq2m : q.2 = m := by
      by_contra hcon
      have := hmax q.2 hq2l hcon
      omega
    have hk2 : k2 = dateStrYmd m.date := by
      rw [hg2] at hq2g
      have := (List.mem_filter.mp hq2g).2
      rw [hq2m] at this
      exact (beq_iff_eq.mp this).symm
    rw [hk2] at hg2 hqstep2
    rw [hg2] at hqstep2
    cases ys with
    | nil =>
      rw [if_pos (by rw [hlen]; simp)]
      rw [hys, if_pos (by simp)] at hqstep2
      have hqx : q = (dateStrYmd m.date, (([] : List Interaction) ++ [m]).headI) := by
        simpa using hqstep2
      rw [hqx]
    | cons y ys' =>
      rw [if_neg (by rw [hlen]; simp only [List.length_cons]; omega)]
      rw [hys, if_neg (by simp)] at hqstep2
      rw [enumSlugs_append] at hqstep2
      rcases List.mem_append.mp hqstep2 with h | h
      · exfalso
        have hq2ys := mem_enumSlugs _ _ _ q h
        rw [hq2m] at hq2ys
        have := hylt m hq2ys
        omega
      · have h2 : q ∈ [(dateStrYmd m.date ++ "_" ++ natToStr (1 + (y :: ys').length), m)] := h
        have hqx := List.mem_singleton.mp h2
        rw [hqx]
        have harith : (l.filter (fun i => dateStrYmd i.date == dateStrYmd m.date)).length =
            1 + (y :: ys').length := by
          rw [hlen]
          simp only [List.length_cons]
          omega
        rw [harith]

/-- `pipelineDateSlug` reads the database only through its interactions
table. -/
theorem pipelineDateSlug_congr (dbA dbB : DB)
    (h : dbA.interactions = dbB.interactions) (pn : String) (date : Datetime)
    (iid : Nat) :
    pipelineDateSlug dbA pn date iid = pipelineDateSlug dbB pn date iid := by
  unfold pipelineDateSlug get_interactions_by_date
  rw [h]

/-- `pipelineDateSlug` for the strictly-largest-id interaction of a
person: the bare `strftime("%Y-%m-%d")` date when the interaction is
alone on its calendar date, otherwise the date suffixed with the size
of its date group — the same shape `build_date_slugs_max` derives for
`_build_date_slugs`. -/
theorem pipelineDateSlug_max (db : DB) (pn : String) (date : Datetime) (m : Interaction)
    (hm : m ∈ db.interactions) (hmpn : m.person_name = pn) (hmdate : m.date = date)
    (hnodup : db.interactions.Pairwise (fun a b => a.id ≠ b.id))
    (hmax : ∀ x ∈ db.interactions, x ≠ m → x.id < m.id)
    (hwfl : ∀ i ∈ db.interactions, DatetimeWF i.date) (hd : DatetimeWF date) :
    pipelineDateSlug db pn date m.id =
      if ((get_interactions db pn).filter
            (fun i => dateStrYmd i.date == dateStrYmd m.date)).length ≤ 1
      then dateStrYmd m.date
      else dateStrYmd m.date ++ "_" ++
        natToStr ((get_interactions db pn).filter
          (fun i => dateStrYmd i.date == dateStrYmd m.date)).length := by
  have hymd : dateStrYmd date = dateStrYmd m.date := by rw [hmdate]
  have hgi : get_interactions db pn =
      pySort (fun a b => lexLe (isoformat a.date).data (isoformat b.date).data)
        (db.interactions.filter (fun i => i.person_name == pn)) := rfl
  have htrans : ∀ a b c : Interaction, (a.id ≤ b.id : Bool) = true →
      (b.id ≤ c.id : Bool) = true → (a.id ≤ c.id : Bool) = true := fun a b c h1 h2 =>
    decide_eq_true (Nat.le_trans (of_decide_eq_true h1) (of_decide_eq_true h2))
  have htot : ∀ a b : Interaction, (a.id ≤ b.id : Bool) = true ∨
      (b.id ≤ a.id : Bool) = true := fun a b => by
    rcases Nat.le_total a.id b.id with h | h
    · exact Or.inl (decide_eq_true h)
    · exact Or.inr (decide_eq_true h)
  have hstep1 : ((db.interactions.filter (fun i => i.person_name == pn)).filter
      (fun i => dateStrYmd i.date == dateStrYmd m.date)) =
      db.interactions.filter
        (fun i => i.person_name == pn && (dateStrYmd i.date == dateStrYmd m.date)) := by
    rw [List.filter_filter]
    apply List.filter_congr
    intro i _
    exact Bool.and_comm _ _
  have hFperm : ((get_interactions db pn).filter
      (fun i => dateStrYmd i.date == dateStrYmd m.date)).Perm
      (db.interactions.filter
        (fun i => i.person_name == pn && (dateStrYmd i.date == dateStrYmd m.date))) := by
    rw [hgi, ← hstep1]
    exact (pySort_perm _ _).filter _
  have hSperm : (pySort (fun a b : Interaction => (a.id ≤ b.id : Bool))
      (db.interactions.filter
        (fun i => i.person_name == pn && (dateStrYmd i.date == dateStrYmd m.date)))).Perm
      ((get_interactions db pn).filter
        (fun i => dateStrYmd i.date == dateStrYmd m.date)) :=
    (pySort_perm _ _).trans hFperm.symm
  have hmgi : m ∈ get_interactions db pn := by
    rw [hgi]
    exact (pySort_perm _ _).mem_iff.mpr
      (List.mem_filter.mpr ⟨hm, beq_iff_eq.mpr hmpn⟩)
  have hmF : m ∈ (get_interactions db pn).filter
      (fun i => dateStrYmd i.date == dateStrYmd m.date) :=
    List.mem_filter.mpr ⟨hmgi, by simp⟩
  have hnodupgi : (get_interactions db pn).Pairwise (fun a b => a.id ≠ b.id) := by
    rw [hgi]
    exact ((pySort_perm _ _).pairwise_iff (fun h => h.symm)).mpr
      (List.Pairwise.sublist (List.filter_sublist _) hnodup)
  have hnodupF : ((get_interactions db pn).filter
      (fun i => dateStrYmd i.date == dateStrYmd m.date)).Pairwise
      (fun a b => a.id ≠ b.id) :=
    List.Pairwise.sublist (List.filter_sublist _) hnodupgi
  have hsubF : ∀ x ∈ (get_interactions db pn).filter
      (fun i => dateStrYmd i.date == dateStrYmd m.date), x ∈ db.interactions := by
    intro x hx
    have hx1 : x ∈ get_interactions db pn := (List.filter_sublist _).subset hx
    rw [hgi] at hx1
    exact (List.filter_sublist _).subset ((pySort_perm _ _).mem_iff.mp hx1)
  have hmaxF : ∀ x ∈ (get_interactions db pn).filter
      (fun i => dateStrYmd i.date == dateStrYmd m.date), x ≠ m → x.id < m.id :=
    fun x hx hxm => hmax x (hsubF x hx) hxm
  have hmS : m ∈ pySort (fun a b : Interaction => (a.id ≤ b.id : Bool))
      (db.interactions.filter
        (fun i => i.person_name == pn && (dateStrYmd i.date == dateStrYmd m.date))) :=
    hSperm.mem_iff.mpr hmF
  have hmaxS : ∀ x ∈ pySort (fun a b : Interaction => (a.id ≤ b.id : Bool))
      (db.interactions.filter
        (fun i => i.person_name == pn && (dateStrYmd i.date == dateStrYmd m.date))),
      x ≠ m → x.id < m.id :=
    fun x hx hxm => hmaxF x (hSperm.mem_iff.mp hx) hxm
  have hnodupS : (pySort (fun a b : Interaction => (a.id ≤ b.id : Bool))
      (db.interactions.filter
        (fun i => i.person_name == pn && (dateStrYmd i.date == dateStrYmd m.date)))).Pairwise
      (fun a b => a.id ≠ b.id) :=
    (hSperm.pairwise_iff (fun h => h.symm)).mpr hnodupF
  have hsortS : (pySort (fun a b : Interaction => (a.id ≤ b.id : Bool))
      (db.interactions.filter
        (fun i => i.person_name == pn && (dateStrYmd i.date == dateStrYmd m.date)))).Pairwise
      (fun a b => a.id ≤ b.id) :=
    (pySort_pairwise _ htrans htot _).imp (fun h => of_decide_eq_true h)
  obtain ⟨ys, hys, hylt⟩ := sorted_max_last _ m hsortS hmS hmaxS hnodupS
  have hlenS : (pySort (fun a b : Interaction => (a.id ≤ b.id : Bool))
      (db.interactions.filter
        (fun i => i.person_name == pn && (dateStrYmd i.date == dateStrYmd m.date)))).length =
      ys.length + 1 := by
    rw [hys]
    simp
  have hlenF : ((get_interactions db pn).filter
      (fun i => dateStrYmd i.date == dateStrYmd m.date)).length = ys.length + 1 := by
    rw [← hSperm.length_eq]
    exact hlenS
  have hfind : (pySort (fun a b : Interaction => (a.id ≤ b.id : Bool))
      (db.interactions.filter
        (fun i => i.person_name == pn && (dateStrYmd i.date == dateStrYmd m.date)))).findIdx
      (fun ix => ix.id == m.id) = ys.length := by
    rw [hys]
    exact findIdx_last m.id m (by simp) ys
      (fun y hy => beq_eq_false_iff_ne.mpr (Nat.ne_of_lt (hylt y hy)))
  show (if (get_interactions_by_date db pn (dateStrYmd date)).length ≤ 1
      then dateStrYmd date
      else dateStrYmd date ++ "_" ++
        natToStr ((get_interactions_by_date db pn (dateStrYmd date)).findIdx
          (fun ix => ix.id == m.id) + 1)) = _
  rw [get_interactions_by_date_eq_filter db pn date hwfl hd]
  simp only [hymd]
  rw [hlenS, hfind, hlenF]

/-- Every `Followup` row appended to the database by the shared
pipeline carries the `date_slug` the pipeline computed with
`pipelineDateSlug` for the interaction it just created (stated against
the final database, whose interactions table the intermediate one
equals). -/
theorem pipeline_followups (ai : AI) (db : DB) (t : Transcript) (ss pn : String)
    (person : Person) (date : Datetime) :
    ∀ fu ∈ (_run_shared_pipeline ai db t ss pn person date).2.1.followups.drop
        db.followups.length,
      fu.date_slug =
        pipelineDateSlug (_run_shared_pipeline ai db t ss pn person date).2.1 pn date
          (_run_shared_pipeline ai db t ss pn person date).1.id := by
  intro fu hfu
  simp only [_run_shared_pipeline] at hfu ⊢
  by_cases hf : (ai.extract_followups (relabel_speakers t ss pn) pn pn).isEmpty = true
  · by_cases hc : (pyStrip person.background == "" && person.interaction_ids.isEmpty) = true
    · rw [if_pos hf, if_pos hc] at hfu
      simp [update_person_background, update_person_state, create_interaction,
        List.drop_length] at hfu
    · rw [if_pos hf, if_neg hc] at hfu
      simp [update_person_state, create_interaction, List.drop_length] at hfu
  · by_cases hc : (pyStrip person.background == "" && person.interaction_ids.isEmpty) = true
    · rw [if_neg hf, if_pos hc] at hfu ⊢
      simp only [update_person_background, update_person_state, create_followups,
        create_interaction] at hfu ⊢
      rw [if_neg hf] at hfu ⊢
      rw [List.drop_left] at hfu
      obtain ⟨e, he, hef⟩ := List.mem_map.mp hfu
      rw [← hef]
      exact pipelineDateSlug_congr _ _ rfl pn date _
    · rw [if_neg hf, if_neg hc] at hfu ⊢
      simp only [update_person_state, create_followups, create_interaction] at hfu ⊢
      rw [if_neg hf] at hfu ⊢
      rw [List.drop_left] at hfu
      obtain ⟨e, he, hef⟩ := List.mem_map.mp hfu
      rw [← hef]
      exact pipelineDateSlug_congr _ _ rfl pn date _

/-- C2: on a well-formed database and a well-formed date, every
`Followup` row the shared pipeline appends carries exactly the slug the
VFS disambiguator `_build_date_slugs` assigns to the interaction the
pipeline just created, when applied to the person's full interaction
list of the resulting database — and that slug is the unique one
`_build_date_slugs` gives that interaction's id: the pipeline's
reimplemented date-slug computation agrees with the VFS one. -/
theorem c2_pipeline_slug_matches_vfs (ai : AI) (db : DB) (t : Transcript)
    (ss pn : String) (person : Person) (date : Datetime)
    (hwf : DBWF db) (hd : DatetimeWF date) :
    (∀ fu ∈ (_run_shared_pipeline ai db t ss pn person date).2.1.followups.drop
        db.followups.length,
      (fu.date_slug, (_run_shared_pipeline ai db t ss pn person date).1) ∈
        _build_date_slugs
          (get_interactions (_run_shared_pipeline ai db t ss pn person date).2.1 pn))
    ∧ (∀ fu ∈ (_run_shared_pipeline ai db t ss pn person date).2.1.followups.drop
        db.followups.length,
      ∀ q ∈ _build_date_slugs
          (get_interactions (_run_shared_pipeline ai db t ss pn person date).2.1 pn),
        q.2.id = (_run_shared_pipeline ai db t ss pn person date).1.id →
          q.1 = fu.date_slug) := by
  obtain ⟨hndb, hltdb, hwfdb⟩ := hwf
  have hint := pipeline_interactions ai db t ss pn person date
  have hfol := pipeline_followups ai db t ss pn person date
  set m := (_run_shared_pipeline ai db t ss pn person date).1 with hmdef
  set db2 := (_run_shared_pipeline ai db t ss pn person date).2.1 with hdb2def
  have hrid : m.id = db.nextInteractionId := rfl
  have hrdate : m.date = date := rfl
  have hrpn : m.person_name = pn := rfl
  have hm2 : m ∈ db2.interactions := by
    rw [hint]
    exact List.mem_append_right _ (by simp)
  have hnodup2 : db2.interactions.Pairwise (fun a b => a.id ≠ b.id) := by
    rw [hint]
    apply List.pairwise_append.mpr
    refine ⟨hndb, List.pairwise_singleton _ _, ?_⟩
    intro a ha b hb
    rw [List.mem_singleton.mp hb, hrid]
    exact Nat.ne_of_lt (hltdb a ha)
  have hmax2 : ∀ x ∈ db2.interactions, x ≠ m → x.id < m.id := by
    intro x hx hxm
    rw [hint] at hx
    rcases List.mem_append.mp hx with h | h
    · rw [hrid]
      exact hltdb x h
    · exact absurd (List.mem_singleton.mp h) hxm
  have hwf2 : ∀ i ∈ db2.interactions, DatetimeWF i.date := by
    intro i hi
    rw [hint] at hi
    rcases List.mem_append.mp hi with h | h
    · exact hwfdb i h
    · rw [List.mem_singleton.mp h, hrdate]
      exact hd
  have hgi : get_interactions db2 pn =
      pySort (fun a b => lexLe (isoformat a.date).data (isoformat b.date).data)
        (db2.interactions.filter (fun i => i.person_name == pn)) := rfl
  have hm_li : m ∈ get_interactions db2 pn := by
    rw [hgi]
    exact (pySort_perm _ _).mem_iff.mpr
      (List.mem_filter.mpr ⟨hm2, beq_iff_eq.mpr hrpn⟩)
  have hnodup_li : (get_interactions db2 pn).Pairwise (fun a b => a.id ≠ b.id) := by
    rw [hgi]
    exact ((pySort_perm _ _).pairwise_iff (fun h => h.symm)).mpr
      (List.Pairwise.sublist (List.filter_sublist _) hnodup2)
  have hmax_li : ∀ x ∈ get_interactions db2 pn, x ≠ m → x.id < m.id := by
    intro x hx hxm
    rw [hgi] at hx
    exact hmax2 x ((List.filter_sublist _).subset ((pySort_perm _ _).mem_iff.mp hx)) hxm
  have hvfs := build_date_slugs_max (get_interactions db2 pn) m hm_li hnodup_li hmax_li
  have hslug := pipelineDateSlug_max db2 pn date m hm2 hrpn hrdate hnodup2 hmax2 hwf2 hd
  constructor
  · intro fu hfu
    rw [hfol fu hfu, hslug]
    exact hvfs.1
  · intro fu hfu q hq hqid
    rw [hfol fu hfu, hslug]
    exact hvfs.2 q hq hqid

/-- Witness for `c2_pipeline_slug_matches_vfs` at concrete inputs: on
`exDB1` (one interaction, id 10, dated 2025-09-05) ingesting a second
transcript for Jane Doe on 2025-09-05 yields a followup row slugged
`"2025-09-05_2"`, and `_build_date_slugs` maps that same slug to the
created interaction. -/
theorem c2_pipeline_slug_matches_vfs_witness :
    (({ id := 1, person_name := "Jane Doe", interaction_id := 21,
        date_slug := "2025-09-05_2", item := "call back", status := "open" } :
          Followup).date_slug,
      (_run_shared_pipeline exAI exDB1 exTranscript "A" "Jane Doe" exJane exDate905).1) ∈
      _build_date_slugs (get_interactions
        (_run_shared_pipeline exAI exDB1 exTranscript "A" "Jane Doe" exJane exDate905).2.1
        "Jane Doe") :=
  (c2_pipeline_slug_matches_vfs exAI exDB1 exTranscript "A" "Jane Doe" exJane exDate905
    ⟨by decide, by decide, by unfold DatetimeWF; decide⟩ (by unfold DatetimeWF; decide)).1
    { id := 1, person_name := "Jane Doe", interaction_id := 21,
      date_slug := "2025-09-05_2", item := "call back", status := "open" }
    (by decide)

/-- C1 (code evidence): on the scenario of two interactions dated
2025-09-05 with ids 10 and 14 plus one dated 2025-09-06 with id 20,
`_build_date_slugs` assigns `"2025-09-05_1"` — not the bare date — to
the lowest-id member of the multi-member group, and no bare
`"2025-09-05"` slug exists at all; the result is the same for a
permuted input order. -/
theorem c1_no_bare_slug_for_first :
    _build_date_slugs [exI10, exI14, exI20] =
      [("2025-09-05_1", exI10), ("2025-09-05_2", exI14), ("2025-09-06", exI20)]
    ∧ lookupSlug (_build_date_slugs [exI10, exI14, exI20]) "2025-09-05" = none
    ∧ lookupSlug (_build_date_slugs [exI20, exI14, exI10]) "2025-09-05_1" = some exI10 := by
  refine ⟨by decide, by decide, by decide⟩

end Rolodex
